import Mathlib

/-!
Shallow embedding of `cppdep.py`, a C/C++ physical-dependency analyzer.

Python strings (paths, basenames, include texts) are modelled as `List Char`.
Python dicts (`self.components`, `self.internal_components`, ...) are modelled
as insertion-ordered association lists; Python sets of dependency components as
duplicate-free lists of identifying keys.  The filesystem is explicit input
data: directory walks are given as enumeration lists and file contents as a
path-to-lines store.  A Python `AssertionError` abort is modelled by `Option`
(`none` means the assertion fired and the process died).
-/

namespace Cppdep

abbrev Pth : Type := List Char

def pstr (s : String) : Pth := s.toList

/-- Python `re` whitespace class `\s` over the ASCII range. -/
def isPySpace (c : Char) : Bool :=
  c = ' ' || c = '\t' || c = '\n' || c = '\r' || c = Char.ofNat 11 || c = Char.ofNat 12

/-! Python dict operations over insertion-ordered association lists. -/

/-- Lookup, `d[k]` / `d.get(k)`. -/
def pget {β : Type} : List (Pth × β) → Pth → Option β
  | [], _ => none
  | (k, v) :: rest, key => if k = key then some v else pget rest key

/-- Python `d[k] = v`: replace in place if the key exists, else append. -/
def pinsert {β : Type} (d : List (Pth × β)) (k : Pth) (v : β) : List (Pth × β) :=
  if (pget d k).isSome then d.map (fun e => if e.1 = k then (k, v) else e)
  else d ++ [(k, v)]

/-- Python `del d[k]`. -/
def pdel {β : Type} (d : List (Pth × β)) (k : Pth) : List (Pth × β) :=
  d.filter (fun e => e.1 ≠ k)

/-- In-place mutation of the object stored under a key (Python objects are
mutated through references held in the dict). -/
def pupdate {β : Type} (d : List (Pth × β)) (k : Pth) (f : β → β) : List (Pth × β) :=
  d.map (fun e => if e.1 = k then (k, f e.2) else e)

/-- Python `d.keys()` in insertion order. -/
def pkeys {β : Type} (d : List (Pth × β)) : List Pth := d.map (fun e => e.1)

/-- Apply a function to every stored value, keeping keys and order. -/
def mapVals {β γ : Type} (g : β → γ) (d : List (Pth × β)) : List (Pth × γ) :=
  d.map (fun e => (e.1, g e.2))

/-- Python `set.add` on a set modelled as a duplicate-free list. -/
def setAdd (l : List Pth) (x : Pth) : List Pth := if x ∈ l then l else l ++ [x]

/-! Path helpers (`os.path` on POSIX, separator `/`), from cppdep.py lines 71-85
and the `posixpath` routines they call. -/

/-- `os.path.basename`: everything after the last `/`. -/
def basename (p : Pth) : Pth := (p.reverse.takeWhile (fun c => c != '/')).reverse

/-- `strip_ext` (line 71): `os.path.splitext(filename)[0]`.  The extension is
split at the last dot of the basename, unless all characters before that dot
(within the basename) are themselves dots. -/
def strip_ext (p : Pth) : Pth :=
  let bn := basename p
  let r := bn.reverse
  let ext := r.takeWhile (fun c => c != '.')
  if ext.length = r.length then p
  else if (r.drop (ext.length + 1)).any (fun c => c != '.') then
    p.take (p.length - (ext.length + 1))
  else p

/-- Character-wise longest common prefix of two strings. -/
def lcp2 : Pth → Pth → Pth
  | [], _ => []
  | _, [] => []
  | a :: as, b :: bs => if a = b then a :: lcp2 as bs else []

/-- `os.path.commonprefix`: character-wise common prefix of all the strings
(the empty string for an empty list). -/
def commonPfx : List Pth → Pth
  | [] => []
  | p :: ps => ps.foldl lcp2 p

/-- `os.path.dirname`: the part before the last `/`, with trailing slashes
stripped unless the result consists of slashes only. -/
def dirname (p : Pth) : Pth :=
  let bn := basename p
  let head := p.take (p.length - bn.length)
  if head ≠ [] ∧ head.any (fun c => c != '/') then
    (head.reverse.dropWhile (fun c => c = '/')).reverse
  else head

/-- `common_path` (lines 76-85).  `none` models the `assert os.path.isabs`
failing. -/
def common_path (paths : List Pth) : Option Pth :=
  let path := commonPfx paths
  if path.head? = some '/' then
    if path.getLast? = some '/' then some path.dropLast
    else if paths.all (fun x => x.length = path.length || x[path.length]? = some '/') then
      some path
    else some (dirname path)
  else none

/-- `os.path.join` for two POSIX path fragments. -/
def pjoin (a b : Pth) : Pth :=
  if b.head? = some '/' then b
  else if a = [] || a.getLast? = some '/' then a ++ b
  else a ++ '/' :: b

/-! File classification regexes (lines 62-63):
`_RE_HFILE = r'(?i).*\.h(xx|\+\+|h|pp|)$'` and the analogous `_RE_CFILE`. -/

def lowerPth (p : Pth) : Pth := p.map Char.toLower

def isHFile (name : Pth) : Bool :=
  let l := lowerPth name
  [pstr ".h", pstr ".hxx", pstr ".h++", pstr ".hh", pstr ".hpp"].any
    (fun s => s.reverse.isPrefixOf l.reverse)

def isCFile (name : Pth) : Bool :=
  let l := lowerPth name
  [pstr ".c", pstr ".cxx", pstr ".c++", pstr ".cc", pstr ".cpp"].any
    (fun s => s.reverse.isPrefixOf l.reverse)

/-! The include scanner (class `Include`, lines 138-211). -/

/-- An include directive: the header text between the delimiters, the
quoted-vs-angled flag, and the lazily resolved path. -/
structure Include where
  hfile : Pth
  with_quotes : Bool
  hpath : Option Pth
deriving DecidableEq

/-- `Include.__str__` (lines 159-163): the original delimiters around the text. -/
def Include.str (i : Include) : Pth :=
  if i.with_quotes then '"' :: (i.hfile ++ ['"']) else '<' :: (i.hfile ++ ['>'])

/-- The text strictly before the last occurrence of `c`, or `none` when `c`
does not occur.  This is exactly what the greedy group `(.+)` followed by the
literal `c` captures in Python's regex engine, provided the result is
nonempty. -/
def lastSplitBefore (c : Char) (l : List Char) : Option (List Char) :=
  match l.reverse.dropWhile (fun x => x != c) with
  | [] => none
  | _ :: tail => some tail.reverse

/-- One line against `_RE_INCLUDE = r'^\s*#include\s*(<(?P<brackets>.+)>|"(?P<quotes>.+)")'`
(line 148).  Leading whitespace, the literal `#include`, optional whitespace,
then either `<...>` (greedy, so up to the last `>` of the line) or `"..."`
(greedy, up to the last `"`), each requiring at least one character inside. -/
def scanIncludeLine (line : Pth) : Option Include :=
  if (pstr "#include").isPrefixOf (line.dropWhile isPySpace) then
    match ((line.dropWhile isPySpace).drop 8).dropWhile isPySpace with
    | '<' :: body =>
      match lastSplitBefore '>' body with
      | some h => if h.isEmpty then none else some ⟨h, false, none⟩
      | none => none
    | '"' :: body =>
      match lastSplitBefore '"' body with
      | some h => if h.isEmpty then none else some ⟨h, true, none⟩
      | none => none
    | _ => none
  else none

/-- `Include.grep` (lines 165-183) over the lines of a source file (lines are
given without their terminating newline). -/
def grepLines (lines : List Pth) : List Include :=
  lines.filterMap scanIncludeLine

/-- `Include.grep` applied through the file-content store (`open(file_path)`;
a path absent from the store yields no includes). -/
def grepFile (fs : List (Pth × List Pth)) (p : Pth) : List Include :=
  ((pget fs p).getD []).filterMap scanIncludeLine

/-- `Include.locate` (lines 185-211), the quoted-include/cwd search.  The
filesystem is abstracted by the `isfile` predicate; the returned flag records
whether the `header not found` warning was printed.  Nothing in the analysis
pipeline below refers to this function: `DependencyAnalysis.analyze` only ever
calls `DependencyAnalysis.locate`. -/
def Include.pyLocate (isfile : Pth → Bool) (inc : Include) (cwd : Pth)
    (include_dirs : List Pth) : Include × Bool :=
  if inc.with_quotes && isfile (pjoin cwd inc.hfile) then
    ({ inc with hpath := some (pjoin cwd inc.hfile) }, false)
  else
    match include_dirs.find? (fun d => isfile (pjoin d inc.hfile)) with
    | some d => ({ inc with hpath := some (pjoin d inc.hfile) }, false)
    | none => (inc, true)

/-! The data model: components, packages, analysis state. -/

/-- Warnings printed to stderr, by call site. -/
inductive Warning
  | headerNotFound (inc : Include)
  | missingInclude (cpath hname : Pth)
  | includeOrder (hname cpath : Pth)
  | incompleteComponent (cname pkgName groupName : Pth)
deriving DecidableEq

/-- `Component` (lines 214-253).  A component is identified project-wide by its
extensionless basename: the key under which `DependencyAnalysis.components`
stores it (the source relies on this via `assert key not in self.components`).
Dependency sets hold those identifying keys: `dep_internal` holds keys into
`components`, `dep_external` holds keys into `external_components`. -/
structure Component where
  cname : Pth
  hpath : Option Pth
  cpath : Option Pth
  groupName : Pth
  pkgName : Pth
  includes_in_h : List Include
  includes_in_c : List Include
  dep_internal : List Pth
  dep_external : List Pth
deriving DecidableEq

/-- `self.hfile = None if not hpath else os.path.basename(hpath)` (line 246). -/
def Component.hfile (c : Component) : Option Pth := c.hpath.map basename

/-- `ExternalComponent` (lines 286-302).  Note that the constructor call in
`locate` passes the bare basename as `hpath` (line 546). -/
structure ExternalComponent where
  hpath : Pth
  groupName : Pth
  pkgName : Pth
deriving DecidableEq

/-- An external package as `locate` sees it: its identity plus the recursive
`os.walk` enumeration of its directories, flattened in iteration order to
(root, filenames-in-root) pairs. -/
structure ExtPackage where
  groupName : Pth
  pkgName : Pth
  walks : List (Pth × List Pth)
deriving DecidableEq

/-- An internal package as `make_components` sees it: identity, its directory
paths (absolute, normalized, as validated by `Package.__init__`), the computed
common root, and the flattened `find` enumeration of all its paths, as
(basename, full path) pairs in walk order. -/
structure PackageIn where
  groupName : Pth
  groupPath : Pth
  pkgName : Pth
  paths : List Pth
  root : Pth
  files : List (Pth × Pth)
deriving DecidableEq

/-- The mutable attributes of `DependencyAnalysis` (lines 436-454) plus the
warning stream.  `components` maps extensionless basenames to components,
`internal_components` maps header basenames to component keys,
`external_components` maps header basenames to external components,
`internal_hfiles` maps header filenames to paths. -/
structure AnalysisState where
  components : List (Pth × Component)
  internal_components : List (Pth × Pth)
  external_components : List (Pth × ExternalComponent)
  internal_hfiles : List (Pth × Pth)
  external_pkgs : List ExtPackage
  warnings : List Warning
deriving DecidableEq

/-- The state right after `__parse_xml_config`: empty containers, with the
external groups flattened into `external_pkgs` in iteration order. -/
def initState (eps : List ExtPackage) : AnalysisState := ⟨[], [], [], [], eps, []⟩

def dummyComponent : Component := ⟨[], none, none, [], [], [], [], [], []⟩

/-! File pairing (lines 110-135 and 556-604). -/

/-- `find_hfiles` (lines 110-123): for every walked file matching `_RE_HFILE`,
record its path under its filename in `hfiles` only if absent (first wins), and
under its extensionless basename in `hbases` unconditionally (last wins). -/
def find_hfiles : List (Pth × Pth) → List (Pth × Pth) → List (Pth × Pth) →
    List (Pth × Pth) × List (Pth × Pth)
  | [], hbases, hfiles => (hbases, hfiles)
  | (f, p) :: rest, hbases, hfiles =>
    if isHFile f then
      let hfiles' := if (pget hfiles f).isSome then hfiles else pinsert hfiles f p
      find_hfiles rest (pinsert hbases (strip_ext f) p) hfiles'
    else find_hfiles rest hbases hfiles

/-- `find_cfiles` (lines 125-135): `assert cbase not in cbases` fires (`none`)
on a duplicate implementation basename. -/
def find_cfiles : List (Pth × Pth) → List (Pth × Pth) → Option (List (Pth × Pth))
  | [], cbases => some cbases
  | (f, p) :: rest, cbases =>
    if isCFile f then
      if (pget cbases (strip_ext f)).isSome then none
      else find_cfiles rest (pinsert cbases (strip_ext f) p)
    else find_cfiles rest cbases

/-- The fields `Component.__init__` (lines 229-253) computes, given the header
and/or implementation path: the name is the file path relative to the package
root with the extension stripped, and the include lists are greps of the two
files. -/
def mkComponentCore (fs : List (Pth × List Pth)) (hpath cpath : Option Pth)
    (pkg : PackageIn) : Component × List Warning :=
  let f := match hpath with
    | some h => h
    | none => cpath.getD []
  let nm := strip_ext (f.drop (pkg.root.length + 1))
  let ws : List Warning := match hpath with
    | none => [.incompleteComponent nm pkg.pkgName pkg.groupName]
    | some _ => []
  (⟨nm, hpath, cpath, pkg.groupName, pkg.pkgName,
    (match hpath with | some h => grepFile fs h | none => []),
    (match cpath with | some c => grepFile fs c | none => []),
    [], []⟩, ws)

/-- `Component.__init__` with its `assert hpath or cpath` (line 240). -/
def mkComponent (fs : List (Pth × List Pth)) (hpath cpath : Option Pth)
    (pkg : PackageIn) : Option (Component × List Warning) :=
  match hpath, cpath with
  | none, none => none
  | h, c => some (mkComponentCore fs h c pkg)

/-- First loop of `__construct_components` (lines 592-600): pair each header
base with its implementation file (deleting it from `cbases`), assert global
key uniqueness, register the component under its key and under its header
basename. -/
def constructLoop1 (fs : List (Pth × List Pth)) (pkg : PackageIn)
    (st : AnalysisState) :
    List (Pth × Pth) → List (Pth × Pth) → Option (AnalysisState × List (Pth × Pth))
  | [], cbases => some (st, cbases)
  | (key, hp) :: rest, cbases =>
    let cpOpt := pget cbases key
    let cbases' := match cpOpt with
      | some _ => pdel cbases key
      | none => cbases
    if (pget st.components key).isSome then none
    else
      match mkComponent fs (some hp) cpOpt pkg with
      | none => none
      | some (c, ws) =>
        constructLoop1 fs pkg
          { st with
            components := pinsert st.components key c,
            internal_components := pinsert st.internal_components (basename hp) key,
            warnings := st.warnings ++ ws }
          rest cbases'

/-- Second loop of `__construct_components` (lines 602-604): the remaining
implementation-only files become incomplete components (not registered in
`internal_components`). -/
def constructLoop2 (fs : List (Pth × List Pth)) (pkg : PackageIn)
    (st : AnalysisState) : List (Pth × Pth) → Option AnalysisState
  | [] => some st
  | (key, cp) :: rest =>
    if (pget st.components key).isSome then none
    else
      match mkComponent fs none (some cp) pkg with
      | none => none
      | some (c, ws) =>
        constructLoop2 fs pkg
          { st with
            components := pinsert st.components key c,
            warnings := st.warnings ++ ws }
          rest

/-- The `internal_hfiles` update in `make_components` (lines 567-569): first
encountered path wins across packages. -/
def addInternalHfiles (st : AnalysisState) : List (Pth × Pth) → AnalysisState
  | [] => st
  | (f, p) :: rest =>
    let st' := if (pget st.internal_hfiles f).isSome then st
      else { st with internal_hfiles := pinsert st.internal_hfiles f p }
    addInternalHfiles st' rest

/-- The body of `make_components` (lines 556-571) for one internal package. -/
def makeStep (fs : List (Pth × List Pth)) (st : AnalysisState)
    (pkg : PackageIn) : Option AnalysisState :=
  let hbhf := find_hfiles pkg.files [] []
  match find_cfiles pkg.files [] with
  | none => none
  | some cbases =>
    match constructLoop1 fs pkg (addInternalHfiles st hbhf.2) hbhf.1 cbases with
    | none => none
    | some (st2, cbLeft) => constructLoop2 fs pkg st2 cbLeft

/-- `make_components` over all internal packages, flattened in group- and
package-iteration order. -/
def make_components (fs : List (Pth × List Pth)) :
    List PackageIn → AnalysisState → Option AnalysisState
  | [], st => some st
  | pkg :: rest, st =>
    match makeStep fs st pkg with
    | none => none
    | some st' => make_components fs rest st'

/-- `Component.check_include_issues` (lines 265-276), returning the warnings it
prints.  Only components with both files are checked; the membership test and
the first-include test compare the basename of each directive's text with the
component's header basename. -/
def check_include_issues (c : Component) : List Warning :=
  match c.hpath, c.cpath with
  | some hp, some cp =>
    let hf := basename hp
    if !(c.includes_in_c.any (fun x => basename x.hfile == hf)) then
      [.missingInclude cp hf]
    else
      match c.includes_in_c with
      | [] => []
      | x :: _ => if hf != basename x.hfile then [.includeOrder hf cp] else []
  | _, _ => []

/-! The resolver (`DependencyAnalysis.locate`, lines 503-554, and
`DependencyAnalysis.analyze`, lines 606-614). -/

/-- Replace the component object stored under a key by a mutated version. -/
def pupdateComp (st : AnalysisState) (k : Pth) (f : Component → Component) : AnalysisState :=
  { st with components := pupdate st.components k f }

/-- Cache a freshly created external component (line 551). -/
def cacheExt (st : AnalysisState) (h : Pth) (e : ExternalComponent) : AnalysisState :=
  { st with external_components := pinsert st.external_components h e }

/-- `component.dep_internal_components.add(dep_component)` (line 525). -/
def addIntDep (st : AnalysisState) (ckey dk : Pth) : AnalysisState :=
  pupdateComp st ckey (fun c => { c with dep_internal := setAdd c.dep_internal dk })

/-- `component.dep_external_components.add(dep_component)` (lines 531, 552). -/
def addExtDep (st : AnalysisState) (ckey ek : Pth) : AnalysisState :=
  pupdateComp st ckey (fun c => { c with dep_external := setAdd c.dep_external ek })

/-- `_find_in` (lines 534-539): walk a directory tree looking for a filename,
returning the root directory of the first hit. -/
def findInWalks (hname : Pth) : List (Pth × List Pth) → Option Pth
  | [] => none
  | (root, files) :: rest =>
    if hname ∈ files then some root else findInWalks hname rest

/-- `_find_external_component` (lines 541-547): first external package, in
group/package iteration order, whose directories contain the file. -/
def findExternal (hname : Pth) : List ExtPackage → Option (ExtPackage × Pth)
  | [] => none
  | p :: rest =>
    match findInWalks hname p.walks with
    | some root => some (p, root)
    | none => findExternal hname rest

/-- Result of `DependencyAnalysis.locate`: `assign = some v` means the method
returned True after executing `include.hpath = v`; `assign = none` means it
returned False without touching the include. -/
structure LocateOut where
  assign : Option (Option Pth)
  st : AnalysisState

/-- `DependencyAnalysis.locate` (lines 503-554).  `ckey` is the key of the
dependent component `c` in `components`.  The quoted-vs-angled flag of the
include is never consulted. -/
def locate (st : AnalysisState) (inc : Include) (ckey : Pth) (c : Component) :
    LocateOut :=
  let hname := basename inc.hfile
  if some hname = Component.hfile c then ⟨some c.hpath, st⟩
  else
    match pget st.internal_components hname with
    | some dk => ⟨some ((pget st.components dk).bind (fun d => d.hpath)), addIntDep st ckey dk⟩
    | none =>
      match pget st.external_components hname with
      | some e => ⟨some (some e.hpath), addExtDep st ckey hname⟩
      | none =>
        match findExternal hname st.external_pkgs with
        | some (p, root) =>
          ⟨some (some (pjoin root hname)),
            addExtDep (cacheExt st hname ⟨hname, p.groupName, p.pkgName⟩) ckey hname⟩
        | none => ⟨none, st⟩

/-- Store a new `hpath` into the include at a position of a list. -/
def modifyAt : List Include → Nat → Option Pth → List Include
  | [], _, _ => []
  | x :: xs, 0, hp => { x with hpath := hp } :: xs
  | x :: xs, n + 1, hp => x :: modifyAt xs n hp

/-- Store a new `hpath` into the i-th include of the header (`b = true`) or
implementation (`b = false`) include list of a component (the mutation
`include.hpath = ...` seen through the component holding the include). -/
def setIncAt (b : Bool) (i : Nat) (hp : Option Pth) (c : Component) : Component :=
  if b then { c with includes_in_h := modifyAt c.includes_in_h i hp }
  else { c with includes_in_c := modifyAt c.includes_in_c i hp }

/-- One iteration of the inner loop of `analyze` (lines 608-613): run `locate`
on the i-th include of the header (`inHeader = true`) or implementation file of
the component stored under `ckey`; store the assigned `hpath` back into the
include, or print the `header not found` warning when `locate` returned
False. -/
def runOne (st : AnalysisState) (ckey : Pth) (inHeader : Bool) (i : Nat) :
    AnalysisState :=
  match pget st.components ckey with
  | none => st
  | some c =>
    match (if inHeader then c.includes_in_h else c.includes_in_c)[i]? with
    | none => st
    | some inc =>
      let out := locate st inc ckey c
      match out.assign with
      | some hp => pupdateComp out.st ckey (setIncAt inHeader i hp)
      | none => { out.st with warnings := out.st.warnings ++ [.headerNotFound inc] }

/-- The per-component body of `analyze` (lines 608-614): all includes of the
header file, then all includes of the implementation file, then
`check_include_issues`. -/
def analyzeComponent (st : AnalysisState) (ckey : Pth) : AnalysisState :=
  match pget st.components ckey with
  | none => st
  | some c =>
    let st1 := (List.range c.includes_in_h.length).foldl
      (fun s i => runOne s ckey true i) st
    let st2 := (List.range c.includes_in_c.length).foldl
      (fun s i => runOne s ckey false i) st1
    match pget st2.components ckey with
    | none => st2
    | some c2 => { st2 with warnings := st2.warnings ++ check_include_issues c2 }

/-- `DependencyAnalysis.analyze` (lines 606-614): every component in insertion
order. -/
def analyze (st : AnalysisState) : AnalysisState :=
  (pkeys st.components).foldl analyzeComponent st

/-! The top-level error surface (lines 50-59, 456-474, 691-702). -/

/-- Exception kinds relevant to the `__main__` guard.  `xmlError` and
`invalidArgument` embed the classes defined at lines 50-59; `etreeParseError`
embeds `xml.etree.ElementTree.ParseError` — the exception the standard
library's `ElementTree.parse` (called at line 466) raises on malformed XML; it
derives from `SyntaxError`, not from cppdep's `XmlError`. -/
inductive PyExc
  | ioError
  | xmlError
  | invalidArgument
  | etreeParseError
  | assertionError
deriving DecidableEq

/-- Outcome of a run under the `__main__` guard. -/
inductive RunOutcome
  | success
  | taggedExit (tag : Pth)
  | tracebackExit
deriving DecidableEq

/-- The `__main__` guard (lines 691-702): each `except` clause prints its
category tag to stderr and exits 1; an exception matching no clause propagates
to the interpreter, which prints a traceback and exits with status 1. -/
def mainGuard : Except PyExc Unit → RunOutcome
  | .ok _ => .success
  | .error .ioError => .taggedExit (pstr "IO Error:")
  | .error .xmlError => .taggedExit (pstr "Configuration XML Error:")
  | .error .invalidArgument => .taggedExit (pstr "Invalid Argument Error:")
  | .error _ => .tracebackExit

def exitStatus : RunOutcome → Nat
  | .success => 0
  | .taggedExit _ => 1
  | .tracebackExit => 1

/-- What `__parse_xml_config` (lines 456-474) raises on its first line when the
configuration file is or is not well-formed XML: `ElementTree.parse` raises
`ParseError` on malformed input, and nothing in cppdep.py ever raises the
`XmlError` its docstrings advertise. -/
def parseConfigResult (wellFormed : Bool) : Except PyExc Unit :=
  if wellFormed then .ok () else .error .etreeParseError

/-! Specification-side definitions, written from the claims' wording, to be
compared with the behaviour of the embedded code. -/

/-- The dependency edges of every component: key, internal dependency keys,
external dependency keys. -/
def depsView (st : AnalysisState) : List (Pth × List Pth × List Pth) :=
  st.components.map (fun e => (e.1, e.2.dep_internal, e.2.dep_external))

/-- Components other than `ckey` are untouched. -/
def unchangedOutside (st st' : AnalysisState) (ckey : Pth) : Prop :=
  ∀ k, k ≠ ckey → pget st'.components k = pget st.components k

/-- The five-way resolution contract of claim C1, for the directive at position
`i` of the header (`b = true`) or implementation (`b = false`) include list of
the component `c` stored under `ckey`.  `H` abbreviates the directive's
basename. -/
def ResolveSpec (st : AnalysisState) (ckey : Pth) (c : Component) (b : Bool)
    (i : Nat) (inc : Include) : Prop :=
  (runOne st ckey b i).internal_components = st.internal_components ∧
  (runOne st ckey b i).internal_hfiles = st.internal_hfiles ∧
  (runOne st ckey b i).external_pkgs = st.external_pkgs ∧
  ((some (basename inc.hfile) = Component.hfile c →
      depsView (runOne st ckey b i) = depsView st ∧
      (runOne st ckey b i).external_components = st.external_components ∧
      (runOne st ckey b i).warnings = st.warnings ∧
      ∃ c', pget (runOne st ckey b i).components ckey = some c' ∧
        (if b then c'.includes_in_h else c'.includes_in_c)[i]? =
          some { inc with hpath := c.hpath }) ∧
  (∀ dk, some (basename inc.hfile) ≠ Component.hfile c →
      pget st.internal_components (basename inc.hfile) = some dk →
      (runOne st ckey b i).external_components = st.external_components ∧
      (runOne st ckey b i).warnings = st.warnings ∧
      unchangedOutside st (runOne st ckey b i) ckey ∧
      ∃ c', pget (runOne st ckey b i).components ckey = some c' ∧
        c'.dep_internal = setAdd c.dep_internal dk ∧
        c'.dep_external = c.dep_external) ∧
  (∀ e, some (basename inc.hfile) ≠ Component.hfile c →
      pget st.internal_components (basename inc.hfile) = none →
      pget st.external_components (basename inc.hfile) = some e →
      (runOne st ckey b i).external_components = st.external_components ∧
      (runOne st ckey b i).warnings = st.warnings ∧
      unchangedOutside st (runOne st ckey b i) ckey ∧
      ∃ c', pget (runOne st ckey b i).components ckey = some c' ∧
        c'.dep_external = setAdd c.dep_external (basename inc.hfile) ∧
        c'.dep_internal = c.dep_internal) ∧
  (∀ p root, some (basename inc.hfile) ≠ Component.hfile c →
      pget st.internal_components (basename inc.hfile) = none →
      pget st.external_components (basename inc.hfile) = none →
      findExternal (basename inc.hfile) st.external_pkgs = some (p, root) →
      (runOne st ckey b i).external_components =
        pinsert st.external_components (basename inc.hfile)
          ⟨basename inc.hfile, p.groupName, p.pkgName⟩ ∧
      (runOne st ckey b i).warnings = st.warnings ∧
      unchangedOutside st (runOne st ckey b i) ckey ∧
      ∃ c', pget (runOne st ckey b i).components ckey = some c' ∧
        c'.dep_external = setAdd c.dep_external (basename inc.hfile) ∧
        c'.dep_internal = c.dep_internal) ∧
  (some (basename inc.hfile) ≠ Component.hfile c →
      pget st.internal_components (basename inc.hfile) = none →
      pget st.external_components (basename inc.hfile) = none →
      findExternal (basename inc.hfile) st.external_pkgs = none →
      (runOne st ckey b i).warnings = st.warnings ++ [Warning.headerNotFound inc] ∧
      (runOne st ckey b i).external_components = st.external_components ∧
      depsView (runOne st ckey b i) = depsView st))

/-- The path of the first walked header file with the given filename (earlier
entries take precedence). -/
def firstHeaderPath : List (Pth × Pth) → Pth → Option Pth
  | [], _ => none
  | (f, p) :: rest, n =>
    if isHFile f && f == n then some p else firstHeaderPath rest n

/-- The path of the last walked header file with the given extensionless
basename (later entries take precedence). -/
def lastHeaderPath : List (Pth × Pth) → Pth → Option Pth
  | [], _ => none
  | (f, p) :: rest, b =>
    match lastHeaderPath rest b with
    | some v => some v
    | none => if isHFile f && strip_ext f == b then some p else none

/-- The component keys a package's walk contributes: extensionless basenames of
its header and implementation files. -/
def pkgKeys (pkg : PackageIn) : List Pth :=
  (pkg.files.filter (fun e => isHFile e.1 || isCFile e.1)).map (fun e => strip_ext e.1)

/-- Well-formedness of the `internal_components` index: every binding points to
a stored component whose header basename is the binding's key. -/
def WfIC (st : AnalysisState) : Prop :=
  ∀ h k, pget st.internal_components h = some k →
    ∃ c, pget st.components k = some c ∧ Component.hfile c = some h

/-- No component lists its own key among its internal dependencies. -/
def NoSelfDep (st : AnalysisState) : Prop :=
  ∀ k c, pget st.components k = some c → k ∉ c.dep_internal

/-- All internal dependency sets are still empty (holds after construction,
before resolution). -/
def DepsEmpty (st : AnalysisState) : Prop :=
  ∀ k c, pget st.components k = some c → c.dep_internal = []

/-! Erasing the quoted-vs-angled flags of every directive (for claim C9). -/

def eraseInc (i : Include) : Include := { i with with_quotes := false }

def eraseComp (c : Component) : Component :=
  { c with includes_in_h := c.includes_in_h.map eraseInc,
           includes_in_c := c.includes_in_c.map eraseInc }

def eraseWarn : Warning → Warning
  | .headerNotFound i => .headerNotFound (eraseInc i)
  | w => w

def eraseFlags (st : AnalysisState) : AnalysisState :=
  { st with components := mapVals eraseComp st.components,
            warnings := st.warnings.map eraseWarn }

/-! Concrete inputs used by the witnesses and counterexamples. -/

def fsC2 : List (Pth × List Pth) := [(pstr "/r/a/u.h", []), (pstr "/r/b/u.h", [])]

def pkgC2 : PackageIn :=
  ⟨pstr "G", pstr "/r", pstr "p", [pstr "/r/a", pstr "/r/b"], pstr "/r",
   [(pstr "u.h", pstr "/r/a/u.h"), (pstr "u.h", pstr "/r/b/u.h")]⟩

def stC2 : AnalysisState :=
  (make_components fsC2 [pkgC2] (initState [])).getD (initState [])

def fsC3 : List (Pth × List Pth) := [(pstr "/g/sub/a.h", [])]

def pkgC3 : PackageIn :=
  ⟨pstr "G", pstr "/g", pstr "sub", [pstr "/g/sub"], pstr "/g/sub",
   [(pstr "a.h", pstr "/g/sub/a.h")]⟩

def stC3 : AnalysisState :=
  (make_components fsC3 [pkgC3] (initState [])).getD (initState [])

def fsW4 : List (Pth × List Pth) :=
  [(pstr "/p/a.h", [pstr "#include \"a.h\"", pstr "#include \"b.h\""]),
   (pstr "/p/b.h", [])]

def pkgW4 : PackageIn :=
  ⟨pstr "G", pstr "/p", pstr "p", [pstr "/p"], pstr "/p",
   [(pstr "a.h", pstr "/p/a.h"), (pstr "b.h", pstr "/p/b.h")]⟩

def stW4 : AnalysisState :=
  (make_components fsW4 [pkgW4] (initState [])).getD (initState [])

def pkgP10 : PackageIn :=
  ⟨pstr "G", pstr "/P", pstr "P", [pstr "/P"], pstr "/P", [(pstr "a.h", pstr "/P/a.h")]⟩

def pkgQ10 : PackageIn :=
  ⟨pstr "H", pstr "/Q", pstr "Q", [pstr "/Q"], pstr "/Q", [(pstr "a.cpp", pstr "/Q/a.cpp")]⟩

def compW1 : Component :=
  ⟨pstr "m", some (pstr "/p/m.h"), none, pstr "G", pstr "p",
   [⟨pstr "x.h", true, none⟩], [], [], []⟩

def stW1 : AnalysisState := ⟨[(pstr "m", compW1)], [], [], [], [], []⟩

def compW9 (q : Bool) : Component :=
  ⟨pstr "m", some (pstr "/p/m.h"), none, pstr "G", pstr "p",
   [⟨pstr "x.h", q, none⟩], [], [], []⟩

def stW9 (q : Bool) : AnalysisState := ⟨[(pstr "m", compW9 q)], [], [], [], [], []⟩

def compW6 : Component :=
  ⟨pstr "widget", some (pstr "/p/widget.h"), some (pstr "/p/widget.c"), pstr "G", pstr "p",
   [], [⟨pstr "other.h", true, none⟩, ⟨pstr "widget.h", true, none⟩], [], []⟩

/-! Lemmas about the dict operations. -/

theorem pget_cons {β : Type} (a : Pth) (b : β) (rest : List (Pth × β)) (key : Pth) :
    pget ((a, b) :: rest) key = if a = key then some b else pget rest key := rfl

theorem pupdate_cons {β : Type} (a : Pth) (b : β) (rest : List (Pth × β))
    (k : Pth) (f : β → β) :
    pupdate ((a, b) :: rest) k f =
      (if a = k then (k, f b) else (a, b)) :: pupdate rest k f := by
  by_cases hak : a = k <;> simp [pupdate, hak]

theorem pget_pupdate {β : Type} (d : List (Pth × β)) (k : Pth) (f : β → β) (k' : Pth) :
    pget (pupdate d k f) k' = if k' = k then (pget d k).map f else pget d k' := by
  induction d with
  | nil => by_cases hk : k' = k <;> simp [pupdate, pget, hk]
  | cons e rest ih =>
    obtain ⟨a, b⟩ := e
    by_cases hak : a = k <;> by_cases hk' : k' = k <;> by_cases hak' : a = k' <;>
      simp_all [pupdate_cons, pget_cons]

theorem pget_append_of_some {β : Type} (d₁ d₂ : List (Pth × β)) (k : Pth) (v : β)
    (h : pget d₁ k = some v) : pget (d₁ ++ d₂) k = some v := by
  induction d₁ with
  | nil => exact absurd h (by simp [pget])
  | cons e rest ih =>
    obtain ⟨a, b⟩ := e
    rw [pget_cons] at h
    show pget ((a, b) :: (rest ++ d₂)) k = some v
    rw [pget_cons]
    by_cases hak : a = k
    · rwa [if_pos hak] at h ⊢
    · rw [if_neg hak] at h ⊢
      exact ih h

theorem pget_append_of_none {β : Type} (d₁ d₂ : List (Pth × β)) (k : Pth)
    (h : pget d₁ k = none) : pget (d₁ ++ d₂) k = pget d₂ k := by
  induction d₁ with
  | nil => rfl
  | cons e rest ih =>
    obtain ⟨a, b⟩ := e
    rw [pget_cons] at h
    show pget ((a, b) :: (rest ++ d₂)) k = pget d₂ k
    rw [pget_cons]
    by_cases hak : a = k
    · rw [if_pos hak] at h; exact absurd h (by simp)
    · rw [if_neg hak] at h ⊢
      exact ih h


theorem pget_pinsert {β : Type} (d : List (Pth × β)) (k : Pth) (v : β) (k' : Pth) :
    pget (pinsert d k v) k' = if k' = k then some v else pget d k' := by
  unfold pinsert
  by_cases hs : (pget d k).isSome
  · rw [if_pos hs]
    have : (d.map fun e => if e.1 = k then (k, v) else e) = pupdate d k (fun _ => v) := rfl
    rw [this, pget_pupdate]
    by_cases hk : k' = k
    · subst hk
      obtain ⟨w, hw⟩ := Option.isSome_iff_exists.mp hs
      simp [hw]
    · simp [hk]
  · rw [if_neg hs]
    by_cases hk : k' = k
    · subst hk
      rw [Option.not_isSome_iff_eq_none] at hs
      rw [pget_append_of_none _ _ _ hs]
      simp [pget]
    · by_cases hg : (pget d k').isSome
      · obtain ⟨w, hw⟩ := Option.isSome_iff_exists.mp hg
        rw [pget_append_of_some _ _ _ _ hw, hw, if_neg hk]
      · rw [Option.not_isSome_iff_eq_none] at hg
        rw [pget_append_of_none _ _ _ hg, hg, if_neg hk]
        simp [pget, Ne.symm hk]

theorem pdel_cons {β : Type} (a : Pth) (b : β) (rest : List (Pth × β)) (k : Pth) :
    pdel ((a, b) :: rest) k = if a = k then pdel rest k else (a, b) :: pdel rest k := by
  by_cases hak : a = k <;> simp [pdel, List.filter_cons, hak]

theorem pget_pdel {β : Type} (d : List (Pth × β)) (k k' : Pth) (h : k' ≠ k) :
    pget (pdel d k) k' = pget d k' := by
  induction d with
  | nil => rfl
  | cons e rest ih =>
    obtain ⟨a, b⟩ := e
    by_cases hak : a = k <;> by_cases hak' : a = k' <;>
      simp_all [pdel_cons, pget_cons]

theorem pget_mem {β : Type} (d : List (Pth × β)) (k : Pth) (v : β)
    (h : pget d k = some v) : (k, v) ∈ d := by
  induction d with
  | nil => exact absurd h (by simp [pget])
  | cons e rest ih =>
    obtain ⟨a, b⟩ := e
    rw [pget_cons] at h
    by_cases hak : a = k
    · rw [if_pos hak] at h
      obtain rfl : b = v := Option.some_injective _ h
      subst hak
      exact List.mem_cons_self _ _
    · rw [if_neg hak] at h
      exact List.mem_cons_of_mem _ (ih h)

theorem pget_eq_none_of_not_mem_keys {β : Type} (d : List (Pth × β)) (k : Pth)
    (h : ∀ v, (k, v) ∉ d) : pget d k = none := by
  induction d with
  | nil => rfl
  | cons e rest ih =>
    obtain ⟨a, b⟩ := e
    rw [pget_cons]
    by_cases hak : a = k
    · subst hak; exact absurd (List.mem_cons_self _ _) (h b)
    · rw [if_neg hak]
      exact ih (fun v hv => h v (List.mem_cons_of_mem _ hv))

theorem pget_mapVals {β γ : Type} (g : β → γ) (d : List (Pth × β)) (k : Pth) :
    pget (mapVals g d) k = (pget d k).map g := by
  induction d with
  | nil => rfl
  | cons e rest ih =>
    obtain ⟨a, b⟩ := e
    show pget ((a, g b) :: mapVals g rest) k = _
    rw [pget_cons, pget_cons]
    by_cases hak : a = k
    · rw [if_pos hak, if_pos hak]; rfl
    · rw [if_neg hak, if_neg hak, ih]

theorem pupdate_pupdate {β : Type} (d : List (Pth × β)) (k : Pth) (f g : β → β) :
    pupdate (pupdate d k f) k g = pupdate d k (fun x => g (f x)) := by
  induction d with
  | nil => rfl
  | cons e rest ih =>
    obtain ⟨a, b⟩ := e
    by_cases hak : a = k <;> simp_all [pupdate_cons]

theorem pkeys_cons {β : Type} (a : Pth) (b : β) (rest : List (Pth × β)) :
    pkeys ((a, b) :: rest) = a :: pkeys rest := rfl

theorem pkeys_pupdate {β : Type} (d : List (Pth × β)) (k : Pth) (f : β → β) :
    pkeys (pupdate d k f) = pkeys d := by
  induction d with
  | nil => rfl
  | cons e rest ih =>
    obtain ⟨a, b⟩ := e
    by_cases hak : a = k <;> simp_all [pupdate_cons, pkeys_cons]

theorem setAdd_mem (l : List Pth) (x y : Pth) :
    y ∈ setAdd l x ↔ y ∈ l ∨ y = x := by
  unfold setAdd
  by_cases hx : x ∈ l
  · rw [if_pos hx]
    constructor
    · exact fun h => Or.inl h
    · rintro (h | h)
      · exact h
      · subst h; exact hx
  · rw [if_neg hx]
    simp

/-! Claim C5. -/

/-- Claim C5 (code_bug evaluation): on a malformed configuration file the
process does exit with status 1, but via an uncaught
`xml.etree.ElementTree.ParseError` traceback — the `except XmlError` clause of
the `__main__` guard never fires, because nothing in cppdep.py raises
`XmlError` — so no diagnostic prefixed `Configuration XML Error:` is printed,
contrary to the claim. -/
theorem claim_C5 :
    exitStatus (mainGuard (parseConfigResult false)) = 1 ∧
    mainGuard (parseConfigResult false) = RunOutcome.tracebackExit ∧
    mainGuard (parseConfigResult false) ≠
      RunOutcome.taggedExit (pstr "Configuration XML Error:") := by
  refine ⟨rfl, rfl, ?_⟩
  decide

/-! Claim C8: scanner round-trip. -/

theorem lastSplitBefore_append (c : Char) (l : List Char) :
    lastSplitBefore c (l ++ [c]) = some l := by
  unfold lastSplitBefore
  rw [List.reverse_append]
  simp [List.dropWhile]

theorem scanIncludeLine_shape (line : Pth) (inc : Include)
    (h : scanIncludeLine line = some inc) : inc.hfile ≠ [] ∧ inc.hpath = none := by
  simp only [scanIncludeLine] at h
  split at h
  · split at h
    · split at h
      · split at h
        · exact absurd h (by simp)
        · rename_i body hsplit hne
          obtain rfl : Include.mk _ false none = inc := Option.some_injective _ h
          refine ⟨?_, rfl⟩
          simpa using hne
      · exact absurd h (by simp)
    · split at h
      · split at h
        · exact absurd h (by simp)
        · rename_i body hsplit hne
          obtain rfl : Include.mk _ true none = inc := Option.some_injective _ h
          refine ⟨?_, rfl⟩
          simpa using hne
      · exact absurd h (by simp)
    · exact absurd h (by simp)
  · exact absurd h (by simp)

theorem scanIncludeLine_synth_angle (hf : Pth) :
    scanIncludeLine ('#':: 'i':: 'n':: 'c':: 'l':: 'u':: 'd':: 'e':: ' ':: '<'::(hf ++ ['>'])) =
      (match lastSplitBefore '>' (hf ++ ['>']) with
        | some h => if h.isEmpty then none else some ⟨h, false, none⟩
        | none => none) := rfl

theorem scanIncludeLine_synth_quote (hf : Pth) :
    scanIncludeLine ('#':: 'i':: 'n':: 'c':: 'l':: 'u':: 'd':: 'e':: ' ':: '"'::(hf ++ ['"'])) =
      (match lastSplitBefore '"' (hf ++ ['"']) with
        | some h => if h.isEmpty then none else some ⟨h, true, none⟩
        | none => none) := rfl

/-- Claim C8: an include scanned from any source line re-scans, from the
synthesized line `#include` + space + its string form, to an include with the
same header text and the same quoted/angled flag. -/
theorem claim_C8 (lines : List Pth) (inc : Include) (h : inc ∈ grepLines lines) :
    scanIncludeLine (pstr "#include " ++ Include.str inc) = some inc := by
  obtain ⟨line, _, hscan⟩ := List.mem_filterMap.mp h
  obtain ⟨hne, hpnone⟩ := scanIncludeLine_shape line inc hscan
  obtain ⟨hf, q, hp⟩ := inc
  simp only [Include.hpath] at hpnone
  subst hpnone
  simp only [Include.hfile] at hne
  cases q
  · have e : pstr "#include " ++ Include.str ⟨hf, false, none⟩ =
        '#':: 'i':: 'n':: 'c':: 'l':: 'u':: 'd':: 'e':: ' ':: '<'::(hf ++ ['>']) := rfl
    rw [e, scanIncludeLine_synth_angle, lastSplitBefore_append]
    cases hf with
    | nil => exact absurd rfl hne
    | cons a l => rfl
  · have e : pstr "#include " ++ Include.str ⟨hf, true, none⟩ =
        '#':: 'i':: 'n':: 'c':: 'l':: 'u':: 'd':: 'e':: ' ':: '"'::(hf ++ ['"']) := rfl
    rw [e, scanIncludeLine_synth_quote, lastSplitBefore_append]
    cases hf with
    | nil => exact absurd rfl hne
    | cons a l => rfl

/-- Witness for C8 at a concrete scanned file. -/
theorem claim_C8_witness :
    (⟨pstr "a.h", false, none⟩ : Include) ∈ grepLines [pstr "#include <a.h>"] ∧
    scanIncludeLine (pstr "#include " ++ Include.str ⟨pstr "a.h", false, none⟩) =
      some ⟨pstr "a.h", false, none⟩ :=
  ⟨by decide, claim_C8 [pstr "#include <a.h>"] ⟨pstr "a.h", false, none⟩ (by decide)⟩

/-! Claim C7: duplicate implementation basenames abort. -/

theorem find_cfiles_mono (files : List (Pth × Pth)) (cb cb' : List (Pth × Pth))
    (k : Pth) (h : find_cfiles files cb = some cb')
    (hk : (pget cb k).isSome) : (pget cb' k).isSome := by
  induction files generalizing cb with
  | nil =>
    simp only [find_cfiles] at h
    obtain rfl : cb = cb' := Option.some_injective _ h
    exact hk
  | cons e rest ih =>
    obtain ⟨f, p⟩ := e
    simp only [find_cfiles] at h
    split at h
    · split at h
      · exact absurd h (by simp)
      · refine ih _ h ?_
        rw [pget_pinsert]
        split <;> simp [hk]
    · exact ih _ h hk

theorem find_cfiles_mem_none (files : List (Pth × Pth)) (cb : List (Pth × Pth))
    (f2 p2 : Pth) (post : List (Pth × Pth))
    (h2 : isCFile f2 = true) (hk : (pget cb (strip_ext f2)).isSome) :
    find_cfiles (files ++ (f2, p2) :: post) cb = none := by
  induction files generalizing cb with
  | nil =>
    simp only [List.nil_append, find_cfiles]
    rw [if_pos h2, if_pos hk]
  | cons e rest ih =>
    obtain ⟨f, p⟩ := e
    simp only [List.cons_append, find_cfiles]
    split
    · split
      · rfl
      · refine ih _ ?_
        rw [pget_pinsert]
        split <;> simp [hk]
    · exact ih _ hk

/-- Claim C7: two implementation files with the same extensionless basename in
one package's walk make `find_cfiles` hit its `assert cbase not in cbases`,
independently of where they occur and of the accumulator's prior contents. -/
theorem claim_C7 (pre mid post : List (Pth × Pth)) (f1 p1 f2 p2 : Pth)
    (cb : List (Pth × Pth)) (h1 : isCFile f1 = true) (h2 : isCFile f2 = true)
    (hb : strip_ext f1 = strip_ext f2) :
    find_cfiles (pre ++ (f1, p1) :: mid ++ (f2, p2) :: post) cb = none := by
  induction pre generalizing cb with
  | nil =>
    simp only [List.nil_append, find_cfiles]
    rw [if_pos h1]
    split
    · rfl
    · exact find_cfiles_mem_none mid _ f2 p2 post h2
        (by rw [pget_pinsert, if_pos hb.symm]; rfl)
  | cons e rest ih =>
    obtain ⟨f, p⟩ := e
    simp only [List.cons_append, find_cfiles]
    split
    · split
      · rfl
      · exact ih _
    · exact ih _

/-- Witness for C7: `a.c` and `a.cpp` in one package. -/
theorem claim_C7_witness :
    isCFile (pstr "a.c") = true ∧ isCFile (pstr "a.cpp") = true ∧
    strip_ext (pstr "a.c") = strip_ext (pstr "a.cpp") ∧
    find_cfiles [(pstr "a.c", pstr "/r/a.c"), (pstr "a.cpp", pstr "/r/s/a.cpp")] [] = none :=
  ⟨by decide, by decide, by decide,
    claim_C7 [] [] [] (pstr "a.c") (pstr "/r/a.c") (pstr "a.cpp") (pstr "/r/s/a.cpp") []
      (by decide) (by decide) (by decide)⟩

/-! Claim C6: include-hygiene warnings. -/

/-- Claim C6: for a component with both files, exactly one `missing include`
warning is produced when no implementation include has the header's basename,
exactly one `include order` warning when some include has it but the first does
not, and no warning otherwise; a component lacking either file produces no
hygiene warning.  (`check_include_issues` only computes warnings, so dependency
edges cannot be affected.) -/
theorem claim_C6 (c : Component) (hp cp : Pth) :
    ((c.hpath = none ∨ c.cpath = none) → check_include_issues c = []) ∧
    (c.hpath = some hp → c.cpath = some cp →
      ((¬ ∃ x ∈ c.includes_in_c, basename x.hfile = basename hp) →
        check_include_issues c = [Warning.missingInclude cp (basename hp)]) ∧
      ((∃ x ∈ c.includes_in_c, basename x.hfile = basename hp) →
        ∀ x0, c.includes_in_c.head? = some x0 →
          (basename x0.hfile ≠ basename hp →
            check_include_issues c = [Warning.includeOrder (basename hp) cp]) ∧
          (basename x0.hfile = basename hp → check_include_issues c = []))) := by
  constructor
  · rintro (h | h)
    · cases hcp : c.cpath <;> simp [check_include_issues, h, hcp]
    · cases hhp : c.hpath <;> simp [check_include_issues, h, hhp]
  · intro h1 h2
    constructor
    · intro hno
      have hfalse : (c.includes_in_c.any (fun x => basename x.hfile == basename hp)) = false := by
        rw [← Bool.not_eq_true, List.any_eq_true]
        intro ⟨x, hx, hbx⟩
        exact hno ⟨x, hx, by simpa using hbx⟩
      simp [check_include_issues, h1, h2, hfalse]
    · intro hyes x0 hx0
      have hA : (c.includes_in_c.any (fun x => basename x.hfile == basename hp)) = true := by
        rw [List.any_eq_true]
        obtain ⟨x, hx, hbx⟩ := hyes
        exact ⟨x, hx, by simpa using hbx⟩
      cases hic : c.includes_in_c with
      | nil => rw [hic] at hx0; exact absurd hx0 (by simp)
      | cons y ys =>
        rw [hic] at hx0
        obtain rfl : y = x0 := by simpa using hx0
        rw [hic] at hA
        constructor
        · intro hne
          have hb : (basename hp != basename y.hfile) = true := by
            simpa [bne_iff_ne] using fun t => hne t.symm
          simp [check_include_issues, h1, h2, hic, hA, hb]
        · intro heq
          have hb : (basename hp != basename y.hfile) = false := by
            simpa [bne_iff_ne] using heq.symm
          simp [check_include_issues, h1, h2, hic, hA, hb]

/-- Witness for C6: `widget.c` includes `other.h` first and `widget.h` second,
producing exactly the include-order warning. -/
theorem claim_C6_witness :
    check_include_issues compW6 =
      [Warning.includeOrder (pstr "widget.h") (pstr "/p/widget.c")] := by
  have h := ((claim_C6 compW6 (pstr "/p/widget.h") (pstr "/p/widget.c")).2 rfl rfl).2
    (by decide) ⟨pstr "other.h", true, none⟩ rfl
  exact h.1 (by decide)


/-! Claim C1: the five-way resolution order. -/

theorem modifyAt_getElem_self (l : List Include) (i : Nat) (hp : Option Pth)
    (inc : Include) (h : l[i]? = some inc) :
    (modifyAt l i hp)[i]? = some { inc with hpath := hp } := by
  induction l generalizing i with
  | nil => simp at h
  | cons x xs ih =>
    cases i with
    | zero =>
      obtain rfl : x = inc := by simpa using h
      simp [modifyAt]
    | succ n =>
      simp only [modifyAt, List.getElem?_cons_succ] at h ⊢
      exact ih n h

theorem setIncAt_dep_internal (b : Bool) (i : Nat) (hp : Option Pth) (c : Component) :
    (setIncAt b i hp c).dep_internal = c.dep_internal := by cases b <;> rfl

theorem setIncAt_dep_external (b : Bool) (i : Nat) (hp : Option Pth) (c : Component) :
    (setIncAt b i hp c).dep_external = c.dep_external := by cases b <;> rfl

theorem setIncAt_hpath (b : Bool) (i : Nat) (hp : Option Pth) (c : Component) :
    (setIncAt b i hp c).hpath = c.hpath := by cases b <;> rfl

theorem setIncAt_hfile (b : Bool) (i : Nat) (hp : Option Pth) (c : Component) :
    Component.hfile (setIncAt b i hp c) = Component.hfile c := by
  unfold Component.hfile
  rw [setIncAt_hpath]

theorem setIncAt_includes (b : Bool) (i : Nat) (hp : Option Pth) (c : Component) :
    (if b then (setIncAt b i hp c).includes_in_h else (setIncAt b i hp c).includes_in_c) =
      modifyAt (if b then c.includes_in_h else c.includes_in_c) i hp := by
  cases b <;> rfl

theorem map_view_pupdate (d : List (Pth × Component)) (k : Pth) (f : Component → Component)
    (hf : ∀ x, (f x).dep_internal = x.dep_internal ∧ (f x).dep_external = x.dep_external) :
    (pupdate d k f).map (fun e => (e.1, e.2.dep_internal, e.2.dep_external)) =
      d.map (fun e => (e.1, e.2.dep_internal, e.2.dep_external)) := by
  induction d with
  | nil => rfl
  | cons e rest ih =>
    obtain ⟨a, b⟩ := e
    rw [pupdate_cons]
    by_cases hak : a = k <;> simp [hak, ih, (hf b).1, (hf b).2]

theorem pupdateComp_components (st : AnalysisState) (k : Pth) (f : Component → Component) :
    (pupdateComp st k f).components = pupdate st.components k f := rfl

theorem addIntDep_components (st : AnalysisState) (ckey dk : Pth) :
    (addIntDep st ckey dk).components =
      pupdate st.components ckey (fun c => { c with dep_internal := setAdd c.dep_internal dk }) :=
  rfl

theorem addExtDep_components (st : AnalysisState) (ckey ek : Pth) :
    (addExtDep st ckey ek).components =
      pupdate st.components ckey (fun c => { c with dep_external := setAdd c.dep_external ek }) :=
  rfl

theorem cacheExt_components (st : AnalysisState) (h : Pth) (e : ExternalComponent) :
    (cacheExt st h e).components = st.components := rfl

theorem locate_fields (st : AnalysisState) (inc : Include) (ckey : Pth) (c : Component) :
    (locate st inc ckey c).st.internal_components = st.internal_components ∧
    (locate st inc ckey c).st.internal_hfiles = st.internal_hfiles ∧
    (locate st inc ckey c).st.external_pkgs = st.external_pkgs := by
  simp only [locate]
  split
  · exact ⟨rfl, rfl, rfl⟩
  · split
    · exact ⟨rfl, rfl, rfl⟩
    · split
      · exact ⟨rfl, rfl, rfl⟩
      · split
        · exact ⟨rfl, rfl, rfl⟩
        · exact ⟨rfl, rfl, rfl⟩

theorem runOne_fields (st : AnalysisState) (ckey : Pth) (b : Bool) (i : Nat) :
    (runOne st ckey b i).internal_components = st.internal_components ∧
    (runOne st ckey b i).internal_hfiles = st.internal_hfiles ∧
    (runOne st ckey b i).external_pkgs = st.external_pkgs := by
  simp only [runOne]
  split
  · exact ⟨rfl, rfl, rfl⟩
  · rename_i c hc
    split
    · exact ⟨rfl, rfl, rfl⟩
    · rename_i inc hi
      obtain ⟨e1, e2, e3⟩ := locate_fields st inc ckey c
      split
      · exact ⟨e1, e2, e3⟩
      · exact ⟨e1, e2, e3⟩

/-- Claim C1: for every internal component and every directive in its header or
implementation file, one `analyze`-loop iteration follows the five-way
resolution order of `DependencyAnalysis.locate` and records exactly the stated
effect: self-include resolves to the component with no edge; a known internal
header adds exactly one internal edge; a cached external header adds exactly
one external edge; otherwise the external packages are walked and the first hit
creates and caches a new external component with an external edge; otherwise
only the `header not found` warning is appended. -/
theorem claim_C1 (st : AnalysisState) (ckey : Pth) (c : Component) (b : Bool) (i : Nat)
    (inc : Include) (hc : pget st.components ckey = some c)
    (hi : (if b then c.includes_in_h else c.includes_in_c)[i]? = some inc) :
    ResolveSpec st ckey c b i inc := by
  obtain ⟨hf1, hf2, hf3⟩ := runOne_fields st ckey b i
  refine ⟨hf1, hf2, hf3, ?_, ?_, ?_, ?_, ?_⟩
  · -- case 1: self-include
    intro h1
    have hloc : locate st inc ckey c = ⟨some c.hpath, st⟩ := by
      simp only [locate]
      rw [if_pos h1]
    have hrun : runOne st ckey b i = pupdateComp st ckey (setIncAt b i c.hpath) := by
      simp only [runOne, hc, hi, hloc]
    refine ⟨?_, ?_, ?_, ?_⟩
    · rw [hrun]
      exact map_view_pupdate st.components ckey _
        (fun x => ⟨setIncAt_dep_internal b i c.hpath x, setIncAt_dep_external b i c.hpath x⟩)
    · rw [hrun]; rfl
    · rw [hrun]; rfl
    · refine ⟨setIncAt b i c.hpath c, ?_, ?_⟩
      · rw [hrun, pupdateComp_components, pget_pupdate, if_pos rfl, hc]
        rfl
      · rw [setIncAt_includes]
        exact modifyAt_getElem_self _ _ _ _ hi
  · -- case 2: internal component
    intro dk h1 h2
    have hloc : locate st inc ckey c =
        ⟨some ((pget st.components dk).bind (fun d => d.hpath)), addIntDep st ckey dk⟩ := by
      simp only [locate]
      rw [if_neg h1]
      simp only [h2]
    have hrun : runOne st ckey b i =
        pupdateComp (addIntDep st ckey dk) ckey
          (setIncAt b i ((pget st.components dk).bind (fun d => d.hpath))) := by
      simp only [runOne, hc, hi, hloc]
    refine ⟨?_, ?_, ?_, ?_⟩
    · rw [hrun]; rfl
    · rw [hrun]; rfl
    · intro k hk
      rw [hrun, pupdateComp_components, addIntDep_components, pupdate_pupdate,
        pget_pupdate, if_neg hk]
    · refine ⟨setIncAt b i ((pget st.components dk).bind (fun d => d.hpath))
          { c with dep_internal := setAdd c.dep_internal dk }, ?_, ?_, ?_⟩
      · rw [hrun, pupdateComp_components, addIntDep_components, pupdate_pupdate,
          pget_pupdate, if_pos rfl, hc]
        rfl
      · rw [setIncAt_dep_internal]
      · rw [setIncAt_dep_external]
  · -- case 3: cached external component
    intro e h1 h2 h3
    have hloc : locate st inc ckey c =
        ⟨some (some e.hpath), addExtDep st ckey (basename inc.hfile)⟩ := by
      simp only [locate]
      rw [if_neg h1]
      simp only [h2, h3]
    have hrun : runOne st ckey b i =
        pupdateComp (addExtDep st ckey (basename inc.hfile)) ckey
          (setIncAt b i (some e.hpath)) := by
      simp only [runOne, hc, hi, hloc]
    refine ⟨?_, ?_, ?_, ?_⟩
    · rw [hrun]; rfl
    · rw [hrun]; rfl
    · intro k hk
      rw [hrun, pupdateComp_components, addExtDep_components, pupdate_pupdate,
        pget_pupdate, if_neg hk]
    · refine ⟨setIncAt b i (some e.hpath)
          { c with dep_external := setAdd c.dep_external (basename inc.hfile) }, ?_, ?_, ?_⟩
      · rw [hrun, pupdateComp_components, addExtDep_components, pupdate_pupdate,
          pget_pupdate, if_pos rfl, hc]
        rfl
      · rw [setIncAt_dep_external]
      · rw [setIncAt_dep_internal]
  · -- case 4: new external component found by walking
    intro p root h1 h2 h3 h4
    have hloc : locate st inc ckey c =
        ⟨some (some (pjoin root (basename inc.hfile))),
          addExtDep
            (cacheExt st (basename inc.hfile)
              ⟨basename inc.hfile, p.groupName, p.pkgName⟩)
            ckey (basename inc.hfile)⟩ := by
      simp only [locate]
      rw [if_neg h1]
      simp only [h2, h3, h4]
    have hrun : runOne st ckey b i =
        pupdateComp
          (addExtDep
            (cacheExt st (basename inc.hfile)
              ⟨basename inc.hfile, p.groupName, p.pkgName⟩)
            ckey (basename inc.hfile)) ckey
          (setIncAt b i (some (pjoin root (basename inc.hfile)))) := by
      simp only [runOne, hc, hi, hloc]
    refine ⟨?_, ?_, ?_, ?_⟩
    · rw [hrun]; rfl
    · rw [hrun]; rfl
    · intro k hk
      rw [hrun, pupdateComp_components, addExtDep_components, cacheExt_components,
        pupdate_pupdate, pget_pupdate, if_neg hk]
    · refine ⟨setIncAt b i (some (pjoin root (basename inc.hfile)))
          { c with dep_external := setAdd c.dep_external (basename inc.hfile) }, ?_, ?_, ?_⟩
      · rw [hrun, pupdateComp_components, addExtDep_components, cacheExt_components,
          pupdate_pupdate, pget_pupdate, if_pos rfl, hc]
        rfl
      · rw [setIncAt_dep_external]
      · rw [setIncAt_dep_internal]
  · -- case 5: not found
    intro h1 h2 h3 h4
    have hloc : locate st inc ckey c = ⟨none, st⟩ := by
      simp only [locate]
      rw [if_neg h1]
      simp only [h2, h3, h4]
    have hrun : runOne st ckey b i =
        { st with warnings := st.warnings ++ [Warning.headerNotFound inc] } := by
      simp only [runOne, hc, hi, hloc]
    exact ⟨by rw [hrun], by rw [hrun], by rw [hrun]; rfl⟩

/-- Witness for C1 at the `header not found` case: a lone component whose only
include resolves nowhere. -/
theorem claim_C1_witness : ResolveSpec stW1 (pstr "m") compW1 true 0 ⟨pstr "x.h", true, none⟩ :=
  claim_C1 stW1 (pstr "m") compW1 true 0 ⟨pstr "x.h", true, none⟩ (by decide) (by decide)

/-! Construction lemmas: file pairing and component registration. -/

theorem pget_pdel_self {β : Type} (d : List (Pth × β)) (k : Pth) :
    pget (pdel d k) k = none := by
  induction d with
  | nil => rfl
  | cons e rest ih =>
    obtain ⟨a, b⟩ := e
    rw [pdel_cons]
    by_cases hak : a = k
    · rw [if_pos hak]; exact ih
    · rw [if_neg hak, pget_cons, if_neg hak]; exact ih

theorem find_hfiles_hfiles (files : List (Pth × Pth)) (hb hf : List (Pth × Pth)) (n : Pth) :
    pget (find_hfiles files hb hf).2 n =
      (match pget hf n with
        | some v => some v
        | none => firstHeaderPath files n) := by
  induction files generalizing hb hf with
  | nil => cases hg : pget hf n <;> simp [find_hfiles, hg, firstHeaderPath]
  | cons e rest ih =>
    obtain ⟨f, p⟩ := e
    simp only [find_hfiles, firstHeaderPath]
    by_cases hH : isHFile f
    · rw [if_pos hH, ih]
      by_cases hs : (pget hf f).isSome
      · rw [if_pos hs]
        by_cases hn : f = n
        · subst hn
          obtain ⟨v, hv⟩ := Option.isSome_iff_exists.mp hs
          simp [hv]
        · cases hg : pget hf n
          · simp [hg, hH, hn]
          · simp [hg]
      · rw [if_neg hs]
        rw [Option.not_isSome_iff_eq_none] at hs
        by_cases hn : f = n
        · subst hn
          rw [pget_pinsert]
          simp [hs, hH]
        · rw [pget_pinsert, if_neg (fun t : n = f => hn t.symm)]
          cases hg : pget hf n
          · simp [hg, hH, hn]
          · simp [hg]
    · rw [if_neg hH, ih]
      cases hg : pget hf n
      · simp [hg, hH]
      · simp [hg]

theorem find_hfiles_hbases (files : List (Pth × Pth)) (hb hf : List (Pth × Pth)) (b : Pth) :
    pget (find_hfiles files hb hf).1 b =
      (match lastHeaderPath files b with
        | some v => some v
        | none => pget hb b) := by
  induction files generalizing hb hf with
  | nil => cases hg : lastHeaderPath [] b <;> simp_all [find_hfiles, lastHeaderPath]
  | cons e rest ih =>
    obtain ⟨f, p⟩ := e
    simp only [find_hfiles, lastHeaderPath]
    by_cases hH : isHFile f
    · rw [if_pos hH, ih]
      cases hlast : lastHeaderPath rest b
      · rw [pget_pinsert]
        by_cases hsb : b = strip_ext f
        · simp [hlast, hsb, hH]
        · have hbeq : (strip_ext f == b) = false := by
            rw [beq_eq_false_iff_ne]
            exact fun t => hsb t.symm
          rw [if_neg hsb]
          simp [hlast, hH, hbeq]
      · simp [hlast]
    · rw [if_neg hH, ih]
      cases hlast : lastHeaderPath rest b <;> simp [hH, hlast]

theorem addInternalHfiles_components (st : AnalysisState) (l : List (Pth × Pth)) :
    (addInternalHfiles st l).components = st.components := by
  induction l generalizing st with
  | nil => rfl
  | cons e rest ih =>
    obtain ⟨f, p⟩ := e
    simp only [addInternalHfiles]
    split <;> exact ih _

theorem addInternalHfiles_ic (st : AnalysisState) (l : List (Pth × Pth)) :
    (addInternalHfiles st l).internal_components = st.internal_components := by
  induction l generalizing st with
  | nil => rfl
  | cons e rest ih =>
    obtain ⟨f, p⟩ := e
    simp only [addInternalHfiles]
    split <;> exact ih _

theorem addInternalHfiles_get (st : AnalysisState) (l : List (Pth × Pth)) (n : Pth) :
    pget (addInternalHfiles st l).internal_hfiles n =
      (match pget st.internal_hfiles n with
        | some v => some v
        | none => pget l n) := by
  induction l generalizing st with
  | nil => cases hg : pget st.internal_hfiles n <;> simp [addInternalHfiles, hg, pget]
  | cons e rest ih =>
    obtain ⟨f, p⟩ := e
    simp only [addInternalHfiles]
    by_cases hs : (pget st.internal_hfiles f).isSome
    · rw [if_pos hs, ih]
      by_cases hn : f = n
      · subst hn
        obtain ⟨v, hv⟩ := Option.isSome_iff_exists.mp hs
        simp [hv, pget_cons]
      · cases hg : pget st.internal_hfiles n <;> simp [hg, pget_cons, hn]
    · rw [if_neg hs, ih]
      rw [Option.not_isSome_iff_eq_none] at hs
      show (match pget { st with internal_hfiles := pinsert st.internal_hfiles f p
          }.internal_hfiles n with
        | some v => some v
        | none => pget rest n) = _
      by_cases hn : f = n
      · subst hn
        show (match pget (pinsert st.internal_hfiles f p) f with
          | some v => some v
          | none => pget rest f) = _
        rw [pget_pinsert, if_pos rfl, hs, pget_cons, if_pos rfl]
      · show (match pget (pinsert st.internal_hfiles f p) n with
          | some v => some v
          | none => pget rest n) = _
        rw [pget_pinsert, if_neg (fun t : n = f => hn t.symm), pget_cons, if_neg hn]

theorem mkComponentCore_hpath (fs : List (Pth × List Pth)) (h cp : Option Pth)
    (pkg : PackageIn) : (mkComponentCore fs h cp pkg).1.hpath = h := by
  cases h <;> cases cp <;> rfl

theorem mkComponentCore_cpath (fs : List (Pth × List Pth)) (h cp : Option Pth)
    (pkg : PackageIn) : (mkComponentCore fs h cp pkg).1.cpath = cp := by
  cases h <;> cases cp <;> rfl

theorem mkComponentCore_dep_internal (fs : List (Pth × List Pth)) (h cp : Option Pth)
    (pkg : PackageIn) : (mkComponentCore fs h cp pkg).1.dep_internal = [] := by
  cases h <;> cases cp <;> rfl

theorem mkComponentCore_dep_external (fs : List (Pth × List Pth)) (h cp : Option Pth)
    (pkg : PackageIn) : (mkComponentCore fs h cp pkg).1.dep_external = [] := by
  cases h <;> cases cp <;> rfl

theorem mkComponentCore_hfile (fs : List (Pth × List Pth)) (hp : Pth) (cp : Option Pth)
    (pkg : PackageIn) :
    Component.hfile (mkComponentCore fs (some hp) cp pkg).1 = some (basename hp) := by
  unfold Component.hfile
  rw [mkComponentCore_hpath]
  rfl

theorem mkComponentCore_cname (fs : List (Pth × List Pth)) (h cp : Option Pth)
    (pkg : PackageIn) :
    (mkComponentCore fs h cp pkg).1.cname =
      strip_ext ((match h with
        | some hh => hh
        | none => cp.getD []).drop (pkg.root.length + 1)) := by
  cases h <;> rfl

theorem mkComponent_some_hp (fs : List (Pth × List Pth)) (hp : Pth) (cp : Option Pth)
    (pkg : PackageIn) :
    mkComponent fs (some hp) cp pkg = some (mkComponentCore fs (some hp) cp pkg) := rfl

theorem mkComponent_some_cp (fs : List (Pth × List Pth)) (cp : Pth) (pkg : PackageIn) :
    mkComponent fs none (some cp) pkg = some (mkComponentCore fs none (some cp) pkg) := rfl

theorem find_cfiles_char (files : List (Pth × Pth)) (cb cb' : List (Pth × Pth))
    (h : find_cfiles files cb = some cb') (k : Pth) :
    (pget cb' k).isSome ↔
      ((pget cb k).isSome ∨ ∃ e ∈ files, isCFile e.1 ∧ strip_ext e.1 = k) := by
  induction files generalizing cb with
  | nil =>
    simp only [find_cfiles] at h
    obtain rfl : cb = cb' := Option.some_injective _ h
    simp
  | cons e rest ih =>
    obtain ⟨f, p⟩ := e
    simp only [find_cfiles] at h
    by_cases hC : isCFile f
    · rw [if_pos hC] at h
      by_cases hs : (pget cb (strip_ext f)).isSome
      · rw [if_pos hs] at h
        exact absurd h (by simp)
      · rw [if_neg hs] at h
        rw [ih _ h]
        rw [pget_pinsert]
        constructor
        · rintro (hk | hk)
          · by_cases hkf : k = strip_ext f
            · exact Or.inr ⟨(f, p), List.mem_cons_self _ _, hC, hkf.symm⟩
            · rw [if_neg hkf] at hk
              exact Or.inl hk
          · obtain ⟨x, hx, h1, h2⟩ := hk
            exact Or.inr ⟨x, List.mem_cons_of_mem _ hx, h1, h2⟩
        · rintro (hk | ⟨x, hx, h1, h2⟩)
          · by_cases hkf : k = strip_ext f
            · rw [if_pos hkf]
              exact Or.inl rfl
            · rw [if_neg hkf]
              exact Or.inl hk
          · rcases List.mem_cons.mp hx with rfl | hx'
            · rw [if_pos h2.symm]
              exact Or.inl rfl
            · exact Or.inr ⟨x, hx', h1, h2⟩
    · rw [if_neg hC] at h
      rw [ih _ h]
      constructor
      · rintro (hk | ⟨x, hx, h1, h2⟩)
        · exact Or.inl hk
        · exact Or.inr ⟨x, List.mem_cons_of_mem _ hx, h1, h2⟩
      · rintro (hk | ⟨x, hx, h1, h2⟩)
        · exact Or.inl hk
        · rcases List.mem_cons.mp hx with rfl | hx'
          · exact absurd h1 hC
          · exact Or.inr ⟨x, hx', h1, h2⟩

/-! Lemmas about the two loops of `__construct_components`. -/

theorem constructLoop1_fields (fs : List (Pth × List Pth)) (pkg : PackageIn)
    (hE : List (Pth × Pth)) (st : AnalysisState) (cb : List (Pth × Pth))
    (st' : AnalysisState) (cb' : List (Pth × Pth))
    (h : constructLoop1 fs pkg st hE cb = some (st', cb')) :
    st'.internal_hfiles = st.internal_hfiles ∧
    st'.external_components = st.external_components ∧
    st'.external_pkgs = st.external_pkgs := by
  induction hE generalizing st cb with
  | nil =>
    simp only [constructLoop1, Option.some.injEq, Prod.mk.injEq] at h
    obtain ⟨rfl, rfl⟩ := h
    exact ⟨rfl, rfl, rfl⟩
  | cons e rest ih =>
    obtain ⟨key, hp⟩ := e
    simp only [constructLoop1, mkComponent_some_hp] at h
    split at h
    · exact absurd h (by simp)
    · obtain ⟨e1, e2, e3⟩ := ih _ _ h
      exact ⟨e1.trans rfl, e2.trans rfl, e3.trans rfl⟩

theorem constructLoop1_mono (fs : List (Pth × List Pth)) (pkg : PackageIn)
    (hE : List (Pth × Pth)) (st : AnalysisState) (cb : List (Pth × Pth))
    (st' : AnalysisState) (cb' : List (Pth × Pth))
    (h : constructLoop1 fs pkg st hE cb = some (st', cb')) (k : Pth)
    (hk : (pget st.components k).isSome) : (pget st'.components k).isSome := by
  induction hE generalizing st cb with
  | nil =>
    simp only [constructLoop1, Option.some.injEq, Prod.mk.injEq] at h
    obtain ⟨rfl, rfl⟩ := h
    exact hk
  | cons e rest ih =>
    obtain ⟨key, hp⟩ := e
    simp only [constructLoop1, mkComponent_some_hp] at h
    split at h
    · exact absurd h (by simp)
    · refine ih _ _ h ?_
      show (pget (pinsert st.components key _) k).isSome
      rw [pget_pinsert]
      split
      · rfl
      · exact hk

theorem constructLoop1_mem_none (fs : List (Pth × List Pth)) (pkg : PackageIn)
    (hE : List (Pth × Pth)) (st : AnalysisState) (cb : List (Pth × Pth))
    (k hp : Pth) (hmem : (k, hp) ∈ hE) (hk : (pget st.components k).isSome) :
    constructLoop1 fs pkg st hE cb = none := by
  induction hE generalizing st cb with
  | nil => exact absurd hmem (by simp)
  | cons e rest ih =>
    obtain ⟨key, hp0⟩ := e
    rcases List.mem_cons.mp hmem with heq | hmem'
    · obtain ⟨rfl, rfl⟩ := Prod.mk.injEq .. ▸ heq
      simp only [constructLoop1, mkComponent_some_hp]
      rw [if_pos hk]
    · simp only [constructLoop1, mkComponent_some_hp]
      split
      · rfl
      · refine ih _ _ hmem' ?_
        show (pget (pinsert st.components key _) k).isSome
        rw [pget_pinsert]
        split
        · rfl
        · exact hk

theorem constructLoop1_components (fs : List (Pth × List Pth)) (pkg : PackageIn)
    (hE : List (Pth × Pth)) (st : AnalysisState) (cb : List (Pth × Pth))
    (st' : AnalysisState) (cb' : List (Pth × Pth))
    (h : constructLoop1 fs pkg st hE cb = some (st', cb')) (k : Pth) :
    (pget st'.components k = pget st.components k ∧ pget hE k = none) ∨
    (∃ hp cp, pget hE k = some hp ∧
      pget st'.components k = some (mkComponentCore fs (some hp) cp pkg).1) := by
  induction hE generalizing st cb with
  | nil =>
    simp only [constructLoop1, Option.some.injEq, Prod.mk.injEq] at h
    obtain ⟨rfl, rfl⟩ := h
    exact Or.inl ⟨rfl, rfl⟩
  | cons e rest ih =>
    obtain ⟨key, hp0⟩ := e
    simp only [constructLoop1, mkComponent_some_hp] at h
    split at h
    · exact absurd h (by simp)
    · rename_i hassert
      by_cases hk : k = key
      · subst hk
        rcases ih _ _ h with ⟨heq, hrest⟩ | ⟨hp', cp', hrest, _⟩
        · refine Or.inr ⟨hp0, pget cb k, ?_, ?_⟩
          · rw [pget_cons, if_pos rfl]
          · rw [heq]
            show pget (pinsert st.components k _) k = _
            rw [pget_pinsert, if_pos rfl]
        · exfalso
          have hm := pget_mem _ _ _ hrest
          exact absurd h (by
            rw [constructLoop1_mem_none fs pkg rest _ _ k hp' hm (by
              show (pget (pinsert st.components k _) k).isSome
              rw [pget_pinsert, if_pos rfl]
              rfl)]
            simp)
      · rcases ih _ _ h with ⟨heq, hrest⟩ | ⟨hp', cp', hrest, hval⟩
        · refine Or.inl ⟨?_, ?_⟩
          · rw [heq]
            show pget (pinsert st.components key _) k = _
            rw [pget_pinsert, if_neg hk]
          · rw [pget_cons, if_neg (fun t => hk t.symm), hrest]
        · refine Or.inr ⟨hp', cp', ?_, hval⟩
          rw [pget_cons, if_neg (fun t => hk t.symm), hrest]

theorem constructLoop1_cb (fs : List (Pth × List Pth)) (pkg : PackageIn)
    (hE : List (Pth × Pth)) (st : AnalysisState) (cb : List (Pth × Pth))
    (st' : AnalysisState) (cb' : List (Pth × Pth))
    (h : constructLoop1 fs pkg st hE cb = some (st', cb')) (k : Pth) :
    (pget hE k = none → pget cb' k = pget cb k) ∧
    (∀ hp, pget hE k = some hp → pget cb' k = none) := by
  induction hE generalizing st cb with
  | nil =>
    simp only [constructLoop1, Option.some.injEq, Prod.mk.injEq] at h
    obtain ⟨rfl, rfl⟩ := h
    exact ⟨fun _ => rfl, fun hp hh => absurd hh (by simp [pget])⟩
  | cons e rest ih =>
    obtain ⟨key, hp0⟩ := e
    simp only [constructLoop1, mkComponent_some_hp] at h
    split at h
    · exact absurd h (by simp)
    · rename_i hassert
      by_cases hk : k = key
      · subst hk
        constructor
        · intro hnone
          rw [pget_cons, if_pos rfl] at hnone
          exact absurd hnone (by simp)
        · intro hp hsome
          have hrest : pget rest k = none := by
            cases hr : pget rest k with
            | none => rfl
            | some hp' =>
              exfalso
              refine absurd h (by
                rw [constructLoop1_mem_none fs pkg rest _ _ k hp' (pget_mem _ _ _ hr) (by
                  show (pget (pinsert st.components k _) k).isSome
                  rw [pget_pinsert, if_pos rfl]
                  rfl)]
                simp)
          have hcb1 : pget (match pget cb k with
              | some _ => pdel cb k
              | none => cb) k = none := by
            cases hcb : pget cb k with
            | some v => simp only [hcb]; exact pget_pdel_self cb k
            | none => simp only [hcb]
          have := (ih _ _ h).1 hrest
          rw [this, hcb1]
      · constructor
        · intro hnone
          rw [pget_cons, if_neg (fun t => hk t.symm)] at hnone
          have := (ih _ _ h).1 hnone
          rw [this]
          cases hcb : pget cb key with
          | some v => simp only [hcb]; exact pget_pdel cb key k hk
          | none => simp only [hcb]
        · intro hp hsome
          rw [pget_cons, if_neg (fun t => hk t.symm)] at hsome
          exact (ih _ _ h).2 hp hsome

theorem constructLoop2_fields (fs : List (Pth × List Pth)) (pkg : PackageIn)
    (cE : List (Pth × Pth)) (st : AnalysisState) (st' : AnalysisState)
    (h : constructLoop2 fs pkg st cE = some st') :
    st'.internal_hfiles = st.internal_hfiles ∧
    st'.internal_components = st.internal_components ∧
    st'.external_components = st.external_components ∧
    st'.external_pkgs = st.external_pkgs := by
  induction cE generalizing st with
  | nil =>
    simp only [constructLoop2, Option.some.injEq] at h
    subst h
    exact ⟨rfl, rfl, rfl, rfl⟩
  | cons e rest ih =>
    obtain ⟨key, cp⟩ := e
    simp only [constructLoop2, mkComponent_some_cp] at h
    split at h
    · exact absurd h (by simp)
    · obtain ⟨e1, e2, e3, e4⟩ := ih _ h
      exact ⟨e1.trans rfl, e2.trans rfl, e3.trans rfl, e4.trans rfl⟩

theorem constructLoop2_mono (fs : List (Pth × List Pth)) (pkg : PackageIn)
    (cE : List (Pth × Pth)) (st : AnalysisState) (st' : AnalysisState)
    (h : constructLoop2 fs pkg st cE = some st') (k : Pth)
    (hk : (pget st.components k).isSome) : (pget st'.components k).isSome := by
  induction cE generalizing st with
  | nil =>
    simp only [constructLoop2, Option.some.injEq] at h
    subst h
    exact hk
  | cons e rest ih =>
    obtain ⟨key, cp⟩ := e
    simp only [constructLoop2, mkComponent_some_cp] at h
    split at h
    · exact absurd h (by simp)
    · refine ih _ h ?_
      show (pget (pinsert st.components key _) k).isSome
      rw [pget_pinsert]
      split
      · rfl
      · exact hk

theorem constructLoop2_mem_none (fs : List (Pth × List Pth)) (pkg : PackageIn)
    (cE : List (Pth × Pth)) (st : AnalysisState) (k cp : Pth)
    (hmem : (k, cp) ∈ cE) (hk : (pget st.components k).isSome) :
    constructLoop2 fs pkg st cE = none := by
  induction cE generalizing st with
  | nil => exact absurd hmem (by simp)
  | cons e rest ih =>
    obtain ⟨key, cp0⟩ := e
    rcases List.mem_cons.mp hmem with heq | hmem'
    · obtain ⟨rfl, rfl⟩ := Prod.mk.injEq .. ▸ heq
      simp only [constructLoop2, mkComponent_some_cp]
      rw [if_pos hk]
    · simp only [constructLoop2, mkComponent_some_cp]
      split
      · rfl
      · refine ih _ hmem' ?_
        show (pget (pinsert st.components key _) k).isSome
        rw [pget_pinsert]
        split
        · rfl
        · exact hk

theorem constructLoop2_components (fs : List (Pth × List Pth)) (pkg : PackageIn)
    (cE : List (Pth × Pth)) (st : AnalysisState) (st' : AnalysisState)
    (h : constructLoop2 fs pkg st cE = some st') (k : Pth) :
    (pget st'.components k = pget st.components k ∧ pget cE k = none) ∨
    (∃ cp, pget cE k = some cp ∧
      pget st'.components k = some (mkComponentCore fs none (some cp) pkg).1) := by
  induction cE generalizing st with
  | nil =>
    simp only [constructLoop2, Option.some.injEq] at h
    subst h
    exact Or.inl ⟨rfl, rfl⟩
  | cons e rest ih =>
    obtain ⟨key, cp0⟩ := e
    simp only [constructLoop2, mkComponent_some_cp] at h
    split at h
    · exact absurd h (by simp)
    · rename_i hassert
      by_cases hk : k = key
      · subst hk
        rcases ih _ h with ⟨heq, hrest⟩ | ⟨cp', hrest, _⟩
        · refine Or.inr ⟨cp0, ?_, ?_⟩
          · rw [pget_cons, if_pos rfl]
          · rw [heq]
            show pget (pinsert st.components k _) k = _
            rw [pget_pinsert, if_pos rfl]
        · exfalso
          refine absurd h (by
            rw [constructLoop2_mem_none fs pkg rest _ k cp' (pget_mem _ _ _ hrest) (by
              show (pget (pinsert st.components k _) k).isSome
              rw [pget_pinsert, if_pos rfl]
              rfl)]
            simp)
      · rcases ih _ h with ⟨heq, hrest⟩ | ⟨cp', hrest, hval⟩
        · refine Or.inl ⟨?_, ?_⟩
          · rw [heq]
            show pget (pinsert st.components key _) k = _
            rw [pget_pinsert, if_neg hk]
          · rw [pget_cons, if_neg (fun t => hk t.symm), hrest]
        · refine Or.inr ⟨cp', ?_, hval⟩
          rw [pget_cons, if_neg (fun t => hk t.symm), hrest]

/-! Lemmas about `make_components`, and claims C2, C3, C10. -/

theorem pkgKeys_mem (pkg : PackageIn) (k : Pth) :
    k ∈ pkgKeys pkg ↔
      ∃ e ∈ pkg.files, (isHFile e.1 || isCFile e.1) = true ∧ strip_ext e.1 = k := by
  simp only [pkgKeys, List.mem_map, List.mem_filter]
  constructor
  · rintro ⟨e, ⟨he, hf⟩, rfl⟩
    exact ⟨e, he, hf, rfl⟩
  · rintro ⟨e, he, hf, rfl⟩
    exact ⟨e, ⟨he, hf⟩, rfl⟩

theorem lastHeaderPath_isSome_of_mem (files : List (Pth × Pth)) (f p b : Pth)
    (hmem : (f, p) ∈ files) (hH : isHFile f = true) (hb : strip_ext f = b) :
    (lastHeaderPath files b).isSome := by
  induction files with
  | nil => exact absurd hmem (by simp)
  | cons e rest ih =>
    obtain ⟨f0, p0⟩ := e
    simp only [lastHeaderPath]
    cases hl : lastHeaderPath rest b
    · rcases List.mem_cons.mp hmem with heq | hmem'
      · obtain ⟨rfl, rfl⟩ := Prod.mk.injEq .. ▸ heq
        rw [if_pos (by rw [hH, hb]; simp)]
        rfl
      · have := ih hmem'
        rw [hl] at this
        exact absurd this (by simp)
    · rfl

theorem makeStep_eq_some (fs : List (Pth × List Pth)) (st : AnalysisState)
    (pkg : PackageIn) (st' : AnalysisState) (h : makeStep fs st pkg = some st') :
    ∃ cbases st2 cbLeft,
      find_cfiles pkg.files [] = some cbases ∧
      constructLoop1 fs pkg (addInternalHfiles st (find_hfiles pkg.files [] []).2)
        (find_hfiles pkg.files [] []).1 cbases = some (st2, cbLeft) ∧
      constructLoop2 fs pkg st2 cbLeft = some st' := by
  simp only [makeStep] at h
  cases hfc : find_cfiles pkg.files [] with
  | none => rw [hfc] at h; exact absurd h (by simp)
  | some cbases =>
    rw [hfc] at h
    have h2 : (match constructLoop1 fs pkg
          (addInternalHfiles st (find_hfiles pkg.files [] []).2)
          (find_hfiles pkg.files [] []).1 cbases with
        | none => none
        | some (st2, cbLeft) => constructLoop2 fs pkg st2 cbLeft) = some st' := h
    cases hl1 : constructLoop1 fs pkg (addInternalHfiles st (find_hfiles pkg.files [] []).2)
        (find_hfiles pkg.files [] []).1 cbases with
    | none => rw [hl1] at h2; exact absurd h2 (by simp)
    | some pair =>
      obtain ⟨st2, cbLeft⟩ := pair
      rw [hl1] at h2
      exact ⟨cbases, st2, cbLeft, rfl, hl1, h2⟩

theorem makeStep_mono (fs : List (Pth × List Pth)) (st : AnalysisState) (pkg : PackageIn)
    (st' : AnalysisState) (h : makeStep fs st pkg = some st') (k : Pth)
    (hk : (pget st.components k).isSome) : (pget st'.components k).isSome := by
  obtain ⟨cbases, st2, cbLeft, hfc, hl1, hl2⟩ := makeStep_eq_some fs st pkg st' h
  refine constructLoop2_mono fs pkg cbLeft st2 st' hl2 k ?_
  refine constructLoop1_mono fs pkg _ _ cbases st2 cbLeft hl1 k ?_
  rw [addInternalHfiles_components]
  exact hk

theorem makeStep_mem (fs : List (Pth × List Pth)) (st : AnalysisState) (pkg : PackageIn)
    (st' : AnalysisState) (h : makeStep fs st pkg = some st') (k : Pth)
    (hmem : k ∈ pkgKeys pkg) : (pget st'.components k).isSome := by
  obtain ⟨cbases, st2, cbLeft, hfc, hl1, hl2⟩ := makeStep_eq_some fs st pkg st' h
  by_cases hhb : (pget (find_hfiles pkg.files [] []).1 k).isSome
  · obtain ⟨hp, hhp⟩ := Option.isSome_iff_exists.mp hhb
    rcases constructLoop1_components fs pkg _ _ cbases st2 cbLeft hl1 k with
      ⟨_, hnone⟩ | ⟨hp', cp', _, hval⟩
    · rw [hnone] at hhp
      exact absurd hhp (by simp)
    · refine constructLoop2_mono fs pkg cbLeft st2 st' hl2 k ?_
      rw [hval]
      rfl
  · rw [Option.not_isSome_iff_eq_none] at hhb
    obtain ⟨e, he, hor, hbase⟩ := (pkgKeys_mem pkg k).mp hmem
    obtain ⟨f, p⟩ := e
    have hC : isCFile f = true := by
      rcases Bool.or_eq_true _ _ |>.mp hor with hH | hC
      · exfalso
        have := lastHeaderPath_isSome_of_mem pkg.files f p k he hH hbase
        rw [find_hfiles_hbases] at hhb
        obtain ⟨v, hv⟩ := Option.isSome_iff_exists.mp this
        rw [hv] at hhb
        exact absurd hhb (by simp)
      · exact hC
    have hcb : (pget cbases k).isSome := by
      rw [find_cfiles_char pkg.files [] cbases hfc k]
      exact Or.inr ⟨(f, p), he, hC, hbase⟩
    have hcbLeft : (pget cbLeft k).isSome := by
      have := (constructLoop1_cb fs pkg _ _ cbases st2 cbLeft hl1 k).1 hhb
      rw [this]
      exact hcb
    rcases constructLoop2_components fs pkg cbLeft st2 st' hl2 k with
      ⟨_, hnone⟩ | ⟨cp', _, hval⟩
    · rw [hnone] at hcbLeft
      exact absurd hcbLeft (by simp)
    · rw [hval]
      rfl

theorem makeStep_fail (fs : List (Pth × List Pth)) (st : AnalysisState) (pkg : PackageIn)
    (k : Pth) (hk : (pget st.components k).isSome) (hmem : k ∈ pkgKeys pkg) :
    makeStep fs st pkg = none := by
  cases hres : makeStep fs st pkg with
  | none => rfl
  | some st' =>
    exfalso
    obtain ⟨cbases, st2, cbLeft, hfc, hl1, hl2⟩ := makeStep_eq_some fs st pkg st' hres
    by_cases hhb : (pget (find_hfiles pkg.files [] []).1 k).isSome
    · obtain ⟨hp, hhp⟩ := Option.isSome_iff_exists.mp hhb
      have := constructLoop1_mem_none fs pkg (find_hfiles pkg.files [] []).1
        (addInternalHfiles st (find_hfiles pkg.files [] []).2) cbases k hp
        (pget_mem _ _ _ hhp) (by rw [addInternalHfiles_components]; exact hk)
      rw [this] at hl1
      exact absurd hl1 (by simp)
    · rw [Option.not_isSome_iff_eq_none] at hhb
      obtain ⟨e, he, hor, hbase⟩ := (pkgKeys_mem pkg k).mp hmem
      obtain ⟨f, p⟩ := e
      have hC : isCFile f = true := by
        rcases Bool.or_eq_true _ _ |>.mp hor with hH | hC
        · exfalso
          have := lastHeaderPath_isSome_of_mem pkg.files f p k he hH hbase
          rw [find_hfiles_hbases] at hhb
          obtain ⟨v, hv⟩ := Option.isSome_iff_exists.mp this
          rw [hv] at hhb
          exact absurd hhb (by simp)
        · exact hC
      have hcb : (pget cbases k).isSome := by
        rw [find_cfiles_char pkg.files [] cbases hfc k]
        exact Or.inr ⟨(f, p), he, hC, hbase⟩
      have hcbLeft : (pget cbLeft k).isSome := by
        have := (constructLoop1_cb fs pkg _ _ cbases st2 cbLeft hl1 k).1 hhb
        rw [this]
        exact hcb
      obtain ⟨cp, hcp⟩ := Option.isSome_iff_exists.mp hcbLeft
      have := constructLoop2_mem_none fs pkg cbLeft st2 k cp (pget_mem _ _ _ hcp)
        (by
          refine constructLoop1_mono fs pkg _ _ cbases st2 cbLeft hl1 k ?_
          rw [addInternalHfiles_components]
          exact hk)
      rw [this] at hl2
      exact absurd hl2 (by simp)

theorem makeStep_components (fs : List (Pth × List Pth)) (st : AnalysisState)
    (pkg : PackageIn) (st' : AnalysisState) (h : makeStep fs st pkg = some st')
    (k : Pth) (c : Component) (hc : pget st'.components k = some c) :
    pget st.components k = some c ∨
    (∃ hp cp, pget (find_hfiles pkg.files [] []).1 k = some hp ∧
      c = (mkComponentCore fs (some hp) cp pkg).1) ∨
    (∃ cp, pget (find_hfiles pkg.files [] []).1 k = none ∧
      c = (mkComponentCore fs none (some cp) pkg).1) := by
  obtain ⟨cbases, st2, cbLeft, hfc, hl1, hl2⟩ := makeStep_eq_some fs st pkg st' h
  rcases constructLoop2_components fs pkg cbLeft st2 st' hl2 k with
    ⟨heq2, hcE⟩ | ⟨cp, hcE, hval⟩
  · rcases constructLoop1_components fs pkg _ _ cbases st2 cbLeft hl1 k with
      ⟨heq1, hhb⟩ | ⟨hp, cp, hhb, hval⟩
    · left
      rw [addInternalHfiles_components] at heq1
      rw [← heq1, ← heq2]
      exact hc
    · right; left
      refine ⟨hp, cp, hhb, ?_⟩
      rw [heq2, hval] at hc
      exact (Option.some_injective _ hc).symm
  · right; right
    have hhb : pget (find_hfiles pkg.files [] []).1 k = none := by
      cases hg : pget (find_hfiles pkg.files [] []).1 k with
      | none => rfl
      | some hp =>
        have := (constructLoop1_cb fs pkg _ _ cbases st2 cbLeft hl1 k).2 hp hg
        rw [this] at hcE
        exact absurd hcE (by simp)
    refine ⟨cp, hhb, ?_⟩
    rw [hval] at hc
    exact (Option.some_injective _ hc).symm

theorem makeStep_ihfiles (fs : List (Pth × List Pth)) (st : AnalysisState)
    (pkg : PackageIn) (st' : AnalysisState) (h : makeStep fs st pkg = some st')
    (n : Pth) :
    pget st'.internal_hfiles n =
      (match pget st.internal_hfiles n with
        | some v => some v
        | none => pget (find_hfiles pkg.files [] []).2 n) := by
  obtain ⟨cbases, st2, cbLeft, hfc, hl1, hl2⟩ := makeStep_eq_some fs st pkg st' h
  have e2 := (constructLoop2_fields fs pkg cbLeft st2 st' hl2).1
  have e1 := (constructLoop1_fields fs pkg _ _ cbases st2 cbLeft hl1).1
  rw [e2, e1]
  exact addInternalHfiles_get st (find_hfiles pkg.files [] []).2 n

theorem make_components_single (fs : List (Pth × List Pth)) (pkg : PackageIn)
    (st st' : AnalysisState) (h : make_components fs [pkg] st = some st') :
    makeStep fs st pkg = some st' := by
  simp only [make_components] at h
  cases hms : makeStep fs st pkg with
  | none => rw [hms] at h; exact absurd h (by simp)
  | some st2 =>
    rw [hms] at h
    simp only [make_components, Option.some.injEq] at h
    rw [h]

/-- Claim C2 counterexample: in a package whose walk meets `/r/a/u.h` before
`/r/b/u.h`, the constructed component for basename `u` holds the second
(last-encountered) header path, not the first as the claim states. -/
theorem claim_C2_counterexample :
    ((make_components fsC2 [pkgC2] (initState [])).bind
      (fun st => (pget st.components (pstr "u")).map (fun c => c.hpath)))
        = some (some (pstr "/r/b/u.h")) ∧
    pstr "/r/b/u.h" ≠ pstr "/r/a/u.h" := by
  constructor
  · decide
  · decide

/-- Claim C2 as amended: within one package the `hfiles` index (and hence the
cross-package `internal_hfiles` index it feeds) keeps the first encountered
path per header filename, but the per-basename `hbases` map is overwritten on
every later duplicate, so the component built for a basename holds the
last-encountered header path. -/
theorem claim_C2_amended (fs : List (Pth × List Pth)) (pkg : PackageIn)
    (eps : List ExtPackage) (st : AnalysisState) (n b : Pth)
    (h : make_components fs [pkg] (initState eps) = some st) :
    pget st.internal_hfiles n = firstHeaderPath pkg.files n ∧
    (∀ c, pget st.components b = some c → c.hpath = lastHeaderPath pkg.files b) := by
  have hms := make_components_single fs pkg _ _ h
  constructor
  · rw [makeStep_ihfiles fs _ pkg st hms n]
    show (match (none : Option Pth) with
      | some v => some v
      | none => pget (find_hfiles pkg.files [] []).2 n) = _
    rw [find_hfiles_hfiles]
    rfl
  · intro c hc
    rcases makeStep_components fs _ pkg st hms b c hc with h0 | ⟨hp, cp, hhb, rfl⟩ |
      ⟨cp, hhb, rfl⟩
    · exact absurd h0 (by simp [initState, pget])
    · rw [mkComponentCore_hpath]
      rw [find_hfiles_hbases] at hhb
      cases hl : lastHeaderPath pkg.files b
      · rw [hl] at hhb
        exact absurd hhb (by simp [pget])
      · rw [hl] at hhb
        simp only [Option.some.injEq] at hhb
        rw [hhb]
    · rw [mkComponentCore_hpath]
      rw [find_hfiles_hbases] at hhb
      cases hl : lastHeaderPath pkg.files b
      · rfl
      · rw [hl] at hhb
        exact absurd hhb (by simp)

/-- Witness for the amended C2 at the concrete duplicated-header package. -/
theorem claim_C2_amended_witness :
    pget stC2.internal_hfiles (pstr "u.h") = firstHeaderPath pkgC2.files (pstr "u.h") ∧
    (∀ c, pget stC2.components (pstr "u") = some c →
      c.hpath = lastHeaderPath pkgC2.files (pstr "u")) :=
  claim_C2_amended fsC2 pkgC2 [] stC2 (pstr "u.h") (pstr "u") (by decide)

/-- Claim C3 counterexample: group path `/g`, package directory `/g/sub`,
header `/g/sub/a.h`.  The component is named `a` — the path relative to the
package root `/g/sub` — whereas relative to the package group root `/g` it
would be `sub/a`. -/
theorem claim_C3_counterexample :
    common_path pkgC3.paths = some pkgC3.root ∧
    pkgC3.groupPath = pstr "/g" ∧
    ((make_components fsC3 [pkgC3] (initState [])).bind
      (fun st => (pget st.components (pstr "a")).map (fun c => c.cname)))
        = some (pstr "a") ∧
    pstr "a" ≠ strip_ext ((pstr "/g/sub/a.h").drop ((pstr "/g").length + 1)) := by
  refine ⟨by decide, by decide, by decide, by decide⟩

/-- Claim C3 as amended: a constructed component's name is the path of its
header file (or, with no header, its implementation file) relative to the
package's own root — the common prefix of the package's directory paths — with
the extension stripped. -/
theorem claim_C3_amended (fs : List (Pth × List Pth)) (pkg : PackageIn)
    (eps : List ExtPackage) (st : AnalysisState)
    (_hroot : common_path pkg.paths = some pkg.root)
    (h : make_components fs [pkg] (initState eps) = some st) (k : Pth) (c : Component)
    (hk : pget st.components k = some c) :
    c.cname = strip_ext ((match c.hpath with
      | some hp => hp
      | none => c.cpath.getD []).drop (pkg.root.length + 1)) := by
  have hms := make_components_single fs pkg _ _ h
  rcases makeStep_components fs _ pkg st hms k c hk with h0 | ⟨hp, cp, _, rfl⟩ |
    ⟨cp, _, rfl⟩
  · exact absurd h0 (by simp [initState, pget])
  · rw [mkComponentCore_cname, mkComponentCore_hpath]
  · rw [mkComponentCore_cname, mkComponentCore_hpath, mkComponentCore_cpath]

/-- Witness for the amended C3 at the concrete package under `/g/sub`. -/
theorem claim_C3_amended_witness :
    ((pget stC3.components (pstr "a")).getD dummyComponent).cname =
      strip_ext ((match ((pget stC3.components (pstr "a")).getD dummyComponent).hpath with
        | some hp => hp
        | none => ((pget stC3.components (pstr "a")).getD dummyComponent).cpath.getD
            []).drop (pkgC3.root.length + 1)) :=
  claim_C3_amended fsC3 pkgC3 [] stC3 (by decide) (by decide) (pstr "a")
    ((pget stC3.components (pstr "a")).getD dummyComponent) (by decide)

theorem make_components_mem_none (fs : List (Pth × List Pth)) (pkgs : List PackageIn)
    (st : AnalysisState) (k : Pth) (hk : (pget st.components k).isSome) (j : Nat)
    (Q : PackageIn) (hj : pkgs[j]? = some Q) (hbQ : k ∈ pkgKeys Q) :
    make_components fs pkgs st = none := by
  induction pkgs generalizing st j with
  | nil => simp at hj
  | cons p rest ih =>
    cases j with
    | zero =>
      have hp : p = Q := by simpa using hj
      simp only [make_components]
      rw [makeStep_fail fs st p k hk (by rw [hp]; exact hbQ)]
    | succ n =>
      cases hms : makeStep fs st p with
      | none => simp only [make_components, hms]
      | some st2 =>
        simp only [make_components, hms]
        exact ih st2 (makeStep_mono fs st p st2 hms k hk) n (by simpa using hj)

/-- Claim C10: two internal packages contributing the same extensionless
basename (whether via a header or an implementation file) abort component
construction through `assert key not in self.components`. -/
theorem claim_C10 (fs : List (Pth × List Pth)) (eps : List ExtPackage)
    (pkgs : List PackageIn) (i j : Nat) (P Q : PackageIn) (b : Pth)
    (hij : i < j) (hi : pkgs[i]? = some P) (hj : pkgs[j]? = some Q)
    (hbP : b ∈ pkgKeys P) (hbQ : b ∈ pkgKeys Q) :
    make_components fs pkgs (initState eps) = none := by
  suffices hgen : ∀ (pkgs : List PackageIn) (st : AnalysisState) (i j : Nat),
      i < j → pkgs[i]? = some P → pkgs[j]? = some Q →
      make_components fs pkgs st = none by
    exact hgen pkgs (initState eps) i j hij hi hj
  intro pkgs
  induction pkgs with
  | nil => intro st i j _ hi _; simp at hi
  | cons p rest ih =>
    intro st i j hij hi hj
    cases i with
    | zero =>
      have hp : p = P := by simpa using hi
      cases j with
      | zero => omega
      | succ n =>
        cases hms : makeStep fs st p with
        | none => simp only [make_components, hms]
        | some st2 =>
          simp only [make_components, hms]
          exact make_components_mem_none fs rest st2 b
            (makeStep_mem fs st p st2 hms b (by rw [hp]; exact hbP)) n Q
            (by simpa using hj) hbQ
    | succ m =>
      cases j with
      | zero => omega
      | succ n =>
        cases hms : makeStep fs st p with
        | none => simp only [make_components, hms]
        | some st2 =>
          simp only [make_components, hms]
          exact ih st2 m n (by omega) (by simpa using hi) (by simpa using hj)

/-- Witness for C10: `a.h` in package P and `a.cpp` in package Q. -/
theorem claim_C10_witness :
    pstr "a" ∈ pkgKeys pkgP10 ∧ pstr "a" ∈ pkgKeys pkgQ10 ∧
    make_components [(pstr "/P/a.h", []), (pstr "/Q/a.cpp", [])] [pkgP10, pkgQ10]
      (initState []) = none :=
  ⟨by decide, by decide,
    claim_C10 [(pstr "/P/a.h", []), (pstr "/Q/a.cpp", [])] [] [pkgP10, pkgQ10] 0 1
      pkgP10 pkgQ10 (pstr "a") (by decide) (by decide) (by decide) (by decide) (by decide)⟩

/-! Claim C4: no self-edges after resolution. -/

theorem WfIC_pupdateComp (st : AnalysisState) (k : Pth) (f : Component → Component)
    (hf : ∀ x, Component.hfile (f x) = Component.hfile x) (hw : WfIC st) :
    WfIC (pupdateComp st k f) := by
  intro h k' hk'
  have hk'' : pget st.internal_components h = some k' := hk'
  obtain ⟨c, hc, hcf⟩ := hw h k' hk''
  by_cases hkk : k' = k
  · subst hkk
    refine ⟨f c, ?_, ?_⟩
    · show pget (pupdate st.components k' f) k' = some (f c)
      rw [pget_pupdate, if_pos rfl, hc]
      rfl
    · rw [hf c]; exact hcf
  · refine ⟨c, ?_, hcf⟩
    show pget (pupdate st.components k f) k' = some c
    rw [pget_pupdate, if_neg hkk]
    exact hc

theorem NoSelfDep_pupdateComp_keep (st : AnalysisState) (k : Pth) (f : Component → Component)
    (hf : ∀ x, (f x).dep_internal = x.dep_internal) (hn : NoSelfDep st) :
    NoSelfDep (pupdateComp st k f) := by
  intro k' c' hk'
  have h2 : pget (pupdate st.components k f) k' = some c' := hk'
  rw [pget_pupdate] at h2
  by_cases hkk : k' = k
  · rw [if_pos hkk] at h2
    cases hg : pget st.components k with
    | none => rw [hg] at h2; exact absurd h2 (by simp)
    | some c0 =>
      rw [hg] at h2
      obtain rfl : f c0 = c' := by simpa using h2
      rw [hf c0]
      exact hn k' c0 (by rw [hkk]; exact hg)
  · rw [if_neg hkk] at h2
    exact hn k' c' h2

theorem NoSelfDep_addIntDep (st : AnalysisState) (ckey dk : Pth) (hn : NoSelfDep st)
    (hne : dk ≠ ckey) : NoSelfDep (addIntDep st ckey dk) := by
  intro k' c' hk'
  have h2 : pget (pupdate st.components ckey
      (fun c => { c with dep_internal := setAdd c.dep_internal dk })) k' = some c' := hk'
  rw [pget_pupdate] at h2
  by_cases hkk : k' = ckey
  · rw [if_pos hkk] at h2
    cases hg : pget st.components ckey with
    | none => rw [hg] at h2; exact absurd h2 (by simp)
    | some c0 =>
      rw [hg] at h2
      obtain rfl : { c0 with dep_internal := setAdd c0.dep_internal dk } = c' := by
        simpa using h2
      intro hmem
      rcases (setAdd_mem _ _ _).mp hmem with hin | heq
      · exact hn k' c0 (by rw [hkk]; exact hg) hin
      · exact hne (heq.symm.trans hkk)
  · rw [if_neg hkk] at h2
    exact hn k' c' h2

theorem locate_pres (st : AnalysisState) (inc : Include) (ckey : Pth) (c : Component)
    (hc : pget st.components ckey = some c) (hw : WfIC st) (hn : NoSelfDep st) :
    WfIC (locate st inc ckey c).st ∧ NoSelfDep (locate st inc ckey c).st := by
  simp only [locate]
  split
  · exact ⟨hw, hn⟩
  · rename_i hguard
    split
    · rename_i dk heq
      obtain ⟨cd, hcd, hcdf⟩ := hw _ dk heq
      have hne : dk ≠ ckey := by
        intro e
        rw [e] at hcd
        rw [hc] at hcd
        obtain rfl : c = cd := Option.some_injective _ hcd
        exact hguard hcdf.symm
      exact ⟨WfIC_pupdateComp st ckey _ (fun x => rfl) hw,
        NoSelfDep_addIntDep st ckey dk hn hne⟩
    · split
      · exact ⟨WfIC_pupdateComp st ckey _ (fun x => rfl) hw,
          NoSelfDep_pupdateComp_keep st ckey _ (fun x => rfl) hn⟩
      · split <;>
          first
            | exact ⟨hw, hn⟩
            | exact ⟨WfIC_pupdateComp _ ckey _ (fun x => rfl) hw,
                NoSelfDep_pupdateComp_keep _ ckey _ (fun x => rfl) hn⟩

theorem runOne_pres (st : AnalysisState) (ckey : Pth) (b : Bool) (i : Nat)
    (hw : WfIC st) (hn : NoSelfDep st) :
    WfIC (runOne st ckey b i) ∧ NoSelfDep (runOne st ckey b i) := by
  simp only [runOne]
  split
  · exact ⟨hw, hn⟩
  · rename_i c hc
    split
    · exact ⟨hw, hn⟩
    · rename_i inc hi
      obtain ⟨hw2, hn2⟩ := locate_pres st inc ckey c hc hw hn
      split
      · exact ⟨WfIC_pupdateComp _ ckey _ (fun x => setIncAt_hfile b i _ x) hw2,
          NoSelfDep_pupdateComp_keep _ ckey _ (fun x => setIncAt_dep_internal b i _ x) hn2⟩
      · exact ⟨hw2, hn2⟩

theorem foldRunOne_pres (ckey : Pth) (b : Bool) (l : List Nat) (st : AnalysisState)
    (hw : WfIC st) (hn : NoSelfDep st) :
    WfIC (l.foldl (fun s i => runOne s ckey b i) st) ∧
    NoSelfDep (l.foldl (fun s i => runOne s ckey b i) st) := by
  induction l generalizing st with
  | nil => exact ⟨hw, hn⟩
  | cons x xs ih =>
    obtain ⟨hw', hn'⟩ := runOne_pres st ckey b x hw hn
    exact ih _ hw' hn'

theorem analyzeComponent_pres (st : AnalysisState) (ckey : Pth)
    (hw : WfIC st) (hn : NoSelfDep st) :
    WfIC (analyzeComponent st ckey) ∧ NoSelfDep (analyzeComponent st ckey) := by
  simp only [analyzeComponent]
  split
  · exact ⟨hw, hn⟩
  · rename_i c hc
    obtain ⟨hw1, hn1⟩ := foldRunOne_pres ckey true (List.range c.includes_in_h.length) st hw hn
    obtain ⟨hw2, hn2⟩ := foldRunOne_pres ckey false (List.range c.includes_in_c.length) _ hw1 hn1
    split
    · exact ⟨hw2, hn2⟩
    · exact ⟨hw2, hn2⟩

theorem analyze_pres (st : AnalysisState) (hw : WfIC st) (hn : NoSelfDep st) :
    WfIC (analyze st) ∧ NoSelfDep (analyze st) := by
  unfold analyze
  generalize pkeys st.components = ks
  induction ks generalizing st with
  | nil => exact ⟨hw, hn⟩
  | cons x xs ih =>
    obtain ⟨hw', hn'⟩ := analyzeComponent_pres st x hw hn
    exact ih _ hw' hn'

theorem constructLoop1_wf (fs : List (Pth × List Pth)) (pkg : PackageIn)
    (hE : List (Pth × Pth)) (st : AnalysisState) (cb : List (Pth × Pth))
    (st' : AnalysisState) (cb' : List (Pth × Pth))
    (h : constructLoop1 fs pkg st hE cb = some (st', cb'))
    (hw : WfIC st) (hd : DepsEmpty st) : WfIC st' ∧ DepsEmpty st' := by
  induction hE generalizing st cb with
  | nil =>
    simp only [constructLoop1, Option.some.injEq, Prod.mk.injEq] at h
    obtain ⟨rfl, rfl⟩ := h
    exact ⟨hw, hd⟩
  | cons e rest ih =>
    obtain ⟨key, hp⟩ := e
    simp only [constructLoop1, mkComponent_some_hp] at h
    split at h
    · exact absurd h (by simp)
    · rename_i hassert
      refine ih _ _ h ?_ ?_
      · intro h' k' hk'
        have hk2 : pget (pinsert st.internal_components (basename hp) key) h' = some k' := hk'
        rw [pget_pinsert] at hk2
        by_cases hh : h' = basename hp
        · rw [if_pos hh] at hk2
          obtain rfl : key = k' := Option.some_injective _ hk2
          refine ⟨(mkComponentCore fs (some hp) (pget cb key) pkg).1, ?_, ?_⟩
          · show pget (pinsert st.components key _) key = _
            rw [pget_pinsert, if_pos rfl]
          · rw [mkComponentCore_hfile, hh]
        · rw [if_neg hh] at hk2
          obtain ⟨c, hcc, hcf⟩ := hw h' k' hk2
          by_cases hkk : k' = key
          · exfalso
            rw [hkk] at hcc
            rw [hcc] at hassert
            exact hassert rfl
          · refine ⟨c, ?_, hcf⟩
            show pget (pinsert st.components key _) k' = some c
            rw [pget_pinsert, if_neg hkk]
            exact hcc
      · intro k' c' hk'
        have hk2 : pget (pinsert st.components key
            (mkComponentCore fs (some hp) (pget cb key) pkg).1) k' = some c' := hk'
        rw [pget_pinsert] at hk2
        by_cases hkk : k' = key
        · rw [if_pos hkk] at hk2
          obtain rfl := Option.some_injective _ hk2
          rw [mkComponentCore_dep_internal]
        · rw [if_neg hkk] at hk2
          exact hd k' c' hk2

theorem constructLoop2_wf (fs : List (Pth × List Pth)) (pkg : PackageIn)
    (cE : List (Pth × Pth)) (st : AnalysisState) (st' : AnalysisState)
    (h : constructLoop2 fs pkg st cE = some st')
    (hw : WfIC st) (hd : DepsEmpty st) : WfIC st' ∧ DepsEmpty st' := by
  induction cE generalizing st with
  | nil =>
    simp only [constructLoop2, Option.some.injEq] at h
    subst h
    exact ⟨hw, hd⟩
  | cons e rest ih =>
    obtain ⟨key, cp⟩ := e
    simp only [constructLoop2, mkComponent_some_cp] at h
    split at h
    · exact absurd h (by simp)
    · rename_i hassert
      refine ih _ h ?_ ?_
      · intro h' k' hk'
        have hk2 : pget st.internal_components h' = some k' := hk'
        obtain ⟨c, hcc, hcf⟩ := hw h' k' hk2
        by_cases hkk : k' = key
        · exfalso
          rw [hkk] at hcc
          rw [hcc] at hassert
          exact hassert rfl
        · refine ⟨c, ?_, hcf⟩
          show pget (pinsert st.components key _) k' = some c
          rw [pget_pinsert, if_neg hkk]
          exact hcc
      · intro k' c' hk'
        have hk2 : pget (pinsert st.components key
            (mkComponentCore fs none (some cp) pkg).1) k' = some c' := hk'
        rw [pget_pinsert] at hk2
        by_cases hkk : k' = key
        · rw [if_pos hkk] at hk2
          obtain rfl := Option.some_injective _ hk2
          rw [mkComponentCore_dep_internal]
        · rw [if_neg hkk] at hk2
          exact hd k' c' hk2

theorem makeStep_wf (fs : List (Pth × List Pth)) (st : AnalysisState) (pkg : PackageIn)
    (st' : AnalysisState) (h : makeStep fs st pkg = some st')
    (hw : WfIC st) (hd : DepsEmpty st) : WfIC st' ∧ DepsEmpty st' := by
  obtain ⟨cbases, st2, cbLeft, hfc, hl1, hl2⟩ := makeStep_eq_some fs st pkg st' h
  have hw1 : WfIC (addInternalHfiles st (find_hfiles pkg.files [] []).2) := by
    intro h' k' hk'
    rw [addInternalHfiles_ic] at hk'
    obtain ⟨c, hc, hcf⟩ := hw h' k' hk'
    refine ⟨c, ?_, hcf⟩
    rw [addInternalHfiles_components]
    exact hc
  have hd1 : DepsEmpty (addInternalHfiles st (find_hfiles pkg.files [] []).2) := by
    intro k' c' hk'
    rw [addInternalHfiles_components] at hk'
    exact hd k' c' hk'
  obtain ⟨hw2, hd2⟩ := constructLoop1_wf fs pkg _ _ cbases st2 cbLeft hl1 hw1 hd1
  exact constructLoop2_wf fs pkg cbLeft st2 st' hl2 hw2 hd2

theorem make_components_wf (fs : List (Pth × List Pth)) (pkgs : List PackageIn)
    (st : AnalysisState) (st' : AnalysisState)
    (h : make_components fs pkgs st = some st') (hw : WfIC st) (hd : DepsEmpty st) :
    WfIC st' ∧ DepsEmpty st' := by
  induction pkgs generalizing st with
  | nil =>
    simp only [make_components, Option.some.injEq] at h
    subst h
    exact ⟨hw, hd⟩
  | cons p rest ih =>
    simp only [make_components] at h
    cases hms : makeStep fs st p with
    | none => rw [hms] at h; exact absurd h (by simp)
    | some st2 =>
      rw [hms] at h
      obtain ⟨hw2, hd2⟩ := makeStep_wf fs st p st2 hms hw hd
      exact ih st2 h hw2 hd2

/-- Claim C4: after the resolution phase no internal component lists its own
key among its internal dependencies, for every constructed analysis state and
regardless of what the files include.  (Components are identified project-wide
by their key in `components`, per the source's global uniqueness assert.) -/
theorem claim_C4 (fs : List (Pth × List Pth)) (eps : List ExtPackage)
    (pkgs : List PackageIn) (st : AnalysisState)
    (h : make_components fs pkgs (initState eps) = some st)
    (k : Pth) (c : Component) (hk : pget (analyze st).components k = some c) :
    k ∉ c.dep_internal := by
  have hinit_w : WfIC (initState eps) := by
    intro h' k' hk'
    exact absurd hk' (by simp [initState, pget])
  have hinit_d : DepsEmpty (initState eps) := by
    intro k' c' hk'
    exact absurd hk' (by simp [initState, pget])
  obtain ⟨hw, hd⟩ := make_components_wf fs pkgs _ st h hinit_w hinit_d
  have hn : NoSelfDep st := by
    intro k' c' hk'
    rw [hd k' c' hk']
    simp
  exact (analyze_pres st hw hn).2 k c hk

/-- Witness for C4: the package from `fsW4`, where `a.h` includes itself and
`b.h`; after analysis the component `a` does not depend on itself. -/
theorem claim_C4_witness :
    pstr "a" ∉ ((pget (analyze stW4).components (pstr "a")).getD dummyComponent).dep_internal :=
  claim_C4 fsW4 [] [pkgW4] stW4 (by decide) (pstr "a")
    ((pget (analyze stW4).components (pstr "a")).getD dummyComponent) (by decide)

/-! Claim C9: resolution is independent of the quoted-vs-angled flag. -/

theorem eraseFlags_components (st : AnalysisState) :
    (eraseFlags st).components = mapVals eraseComp st.components := rfl

theorem eraseFlags_ic (st : AnalysisState) :
    (eraseFlags st).internal_components = st.internal_components := rfl

theorem eraseFlags_ec (st : AnalysisState) :
    (eraseFlags st).external_components = st.external_components := rfl

theorem eraseFlags_ep (st : AnalysisState) :
    (eraseFlags st).external_pkgs = st.external_pkgs := rfl

theorem eraseComp_hpath (c : Component) : (eraseComp c).hpath = c.hpath := rfl

theorem eraseComp_cpath (c : Component) : (eraseComp c).cpath = c.cpath := rfl

theorem eraseComp_inc_h (c : Component) :
    (eraseComp c).includes_in_h = c.includes_in_h.map eraseInc := rfl

theorem eraseComp_inc_c (c : Component) :
    (eraseComp c).includes_in_c = c.includes_in_c.map eraseInc := rfl

theorem modifyAt_map_erase (l : List Include) (i : Nat) (hp : Option Pth) :
    modifyAt (l.map eraseInc) i hp = (modifyAt l i hp).map eraseInc := by
  induction l generalizing i with
  | nil => rfl
  | cons x xs ih =>
    cases i with
    | zero => rfl
    | succ n =>
      show eraseInc x :: modifyAt (xs.map eraseInc) n hp = _
      rw [ih n]
      rfl

theorem setIncAt_erase (b : Bool) (i : Nat) (hp : Option Pth) (c : Component) :
    setIncAt b i hp (eraseComp c) = eraseComp (setIncAt b i hp c) := by
  cases b
  · show { eraseComp c with includes_in_c := modifyAt (eraseComp c).includes_in_c i hp } = _
    rw [eraseComp_inc_c, modifyAt_map_erase]
    rfl
  · show { eraseComp c with includes_in_h := modifyAt (eraseComp c).includes_in_h i hp } = _
    rw [eraseComp_inc_h, modifyAt_map_erase]
    rfl

theorem pupdate_mapVals {β : Type} (d : List (Pth × β)) (k : Pth) (f g : β → β)
    (hfg : ∀ x, f (g x) = g (f x)) :
    pupdate (mapVals g d) k f = mapVals g (pupdate d k f) := by
  induction d with
  | nil => rfl
  | cons e rest ih =>
    obtain ⟨a, b⟩ := e
    show pupdate ((a, g b) :: mapVals g rest) k f = _
    rw [pupdate_cons, pupdate_cons]
    by_cases hak : a = k
    · rw [if_pos hak, if_pos hak, ih]
      show (k, f (g b)) :: _ = (k, g (f b)) :: _
      rw [hfg b]
      rfl
    · rw [if_neg hak, if_neg hak, ih]
      rfl

theorem pupdateComp_erase (st : AnalysisState) (k : Pth) (f : Component → Component)
    (hfg : ∀ x, f (eraseComp x) = eraseComp (f x)) :
    pupdateComp (eraseFlags st) k f = eraseFlags (pupdateComp st k f) := by
  show { eraseFlags st with components := pupdate (eraseFlags st).components k f } = _
  rw [eraseFlags_components, pupdate_mapVals _ _ _ _ hfg]
  rfl

theorem addIntDep_erase (st : AnalysisState) (ckey dk : Pth) :
    addIntDep (eraseFlags st) ckey dk = eraseFlags (addIntDep st ckey dk) :=
  pupdateComp_erase st ckey _ (fun x => rfl)

theorem addExtDep_erase (st : AnalysisState) (ckey ek : Pth) :
    addExtDep (eraseFlags st) ckey ek = eraseFlags (addExtDep st ckey ek) :=
  pupdateComp_erase st ckey _ (fun x => rfl)

theorem cacheExt_erase (st : AnalysisState) (h : Pth) (e : ExternalComponent) :
    cacheExt (eraseFlags st) h e = eraseFlags (cacheExt st h e) := rfl

theorem locate_erase (st : AnalysisState) (inc : Include) (ckey : Pth) (c : Component) :
    locate (eraseFlags st) (eraseInc inc) ckey (eraseComp c) =
      ⟨(locate st inc ckey c).assign, eraseFlags (locate st inc ckey c).st⟩ := by
  have hb : basename (eraseInc inc).hfile = basename inc.hfile := rfl
  have hf : Component.hfile (eraseComp c) = Component.hfile c := rfl
  simp only [locate, hb, hf, eraseFlags_ic, eraseFlags_ec, eraseFlags_ep]
  by_cases h1 : some (basename inc.hfile) = Component.hfile c
  · rw [if_pos h1, if_pos h1]
    rfl
  · rw [if_neg h1, if_neg h1]
    cases h2 : pget st.internal_components (basename inc.hfile) with
    | some dk =>
      simp only [h2]
      rw [eraseFlags_components, pget_mapVals, addIntDep_erase]
      congr 1
      cases pget st.components dk <;> rfl
    | none =>
      simp only [h2]
      cases h3 : pget st.external_components (basename inc.hfile) with
      | some e =>
        simp only [h3]
        rw [addExtDep_erase]
      | none =>
        simp only [h3]
        cases h4 : findExternal (basename inc.hfile) st.external_pkgs with
        | some pr =>
          obtain ⟨p, root⟩ := pr
          simp only [h4]
          rw [cacheExt_erase, addExtDep_erase]
        | none =>
          simp only [h4]

theorem eraseFlags_warn_append (S : AnalysisState) (ws1 ws2 : List Warning)
    (hws : ws2.map eraseWarn = ws1) :
    { eraseFlags S with warnings := (eraseFlags S).warnings ++ ws1 } =
      eraseFlags { S with warnings := S.warnings ++ ws2 } := by
  obtain ⟨cs, ic, ec, ihf, ep, w⟩ := S
  simp only [eraseFlags, List.map_append]
  rw [hws]

theorem ifb_includes_erase (b : Bool) (c : Component) :
    (if b then (eraseComp c).includes_in_h else (eraseComp c).includes_in_c) =
      (if b then c.includes_in_h else c.includes_in_c).map eraseInc := by
  cases b <;> rfl

theorem runOne_erase (st : AnalysisState) (ckey : Pth) (b : Bool) (i : Nat) :
    runOne (eraseFlags st) ckey b i = eraseFlags (runOne st ckey b i) := by
  simp only [runOne, eraseFlags_components, pget_mapVals]
  cases hc : pget st.components ckey with
  | none => simp only [hc, Option.map_none']
  | some c =>
    simp only [hc, Option.map_some', ifb_includes_erase, List.getElem?_map]
    cases hi : (if b then c.includes_in_h else c.includes_in_c)[i]? with
    | none => simp only [hi, Option.map_none']
    | some inc =>
      simp only [hi, Option.map_some', locate_erase]
      cases ha : (locate st inc ckey c).assign with
      | some hp =>
        simp only [ha]
        exact pupdateComp_erase _ ckey _ (fun x => setIncAt_erase b i hp x)
      | none =>
        simp only [ha]
        exact eraseFlags_warn_append _ [Warning.headerNotFound (eraseInc inc)]
          [Warning.headerNotFound inc] rfl

theorem map_eraseWarn_of_forall (l : List Warning) (h : ∀ w ∈ l, eraseWarn w = w) :
    l.map eraseWarn = l := by
  induction l with
  | nil => rfl
  | cons a t ih =>
    simp only [List.map_cons]
    rw [h a (List.mem_cons_self a t), ih (fun w hw => h w (List.mem_cons_of_mem a hw))]

theorem eraseWarn_check (c : Component) :
    (check_include_issues c).map eraseWarn = check_include_issues c := by
  apply map_eraseWarn_of_forall
  intro w hw
  simp only [check_include_issues] at hw
  split at hw
  · split at hw
    · simp only [List.mem_singleton] at hw
      subst hw
      rfl
    · split at hw
      · simp at hw
      · split at hw
        · simp only [List.mem_singleton] at hw
          subst hw
          rfl
        · simp at hw
  · simp at hw

theorem check_include_issues_erase (c : Component) :
    check_include_issues (eraseComp c) = check_include_issues c := by
  obtain ⟨nm, hpo, cpo, gn, pn, ihh, icc, di, de⟩ := c
  cases hpo with
  | none => cases cpo <;> rfl
  | some hp =>
    cases cpo with
    | none => rfl
    | some cp =>
      simp only [check_include_issues, eraseComp]
      rw [List.any_map]
      have hcomp : ((fun x => basename x.hfile == basename hp) ∘ eraseInc) =
          (fun x : Include => basename x.hfile == basename hp) := rfl
      rw [hcomp]
      cases icc with
      | nil => rfl
      | cons y ys => split <;> rfl

theorem foldRunOne_erase (ckey : Pth) (b : Bool) (l : List Nat) (st : AnalysisState) :
    l.foldl (fun s i => runOne s ckey b i) (eraseFlags st) =
      eraseFlags (l.foldl (fun s i => runOne s ckey b i) st) := by
  induction l generalizing st with
  | nil => rfl
  | cons x xs ih =>
    show xs.foldl _ (runOne (eraseFlags st) ckey b x) = _
    rw [runOne_erase, ih]
    rfl

theorem analyzeComponent_erase (st : AnalysisState) (ckey : Pth) :
    analyzeComponent (eraseFlags st) ckey = eraseFlags (analyzeComponent st ckey) := by
  simp only [analyzeComponent, eraseFlags_components, pget_mapVals]
  cases hc : pget st.components ckey with
  | none => simp only [hc, Option.map_none']
  | some c =>
    simp only [hc, Option.map_some', eraseComp_inc_h, eraseComp_inc_c, List.length_map]
    rw [foldRunOne_erase, foldRunOne_erase]
    set st2 := (List.range c.includes_in_c.length).foldl (fun s i => runOne s ckey false i)
      ((List.range c.includes_in_h.length).foldl (fun s i => runOne s ckey true i) st) with hst2
    simp only [eraseFlags_components, pget_mapVals]
    cases hc2 : pget st2.components ckey with
    | none => simp only [hc2, Option.map_none']
    | some c2 =>
      simp only [hc2, Option.map_some']
      rw [check_include_issues_erase]
      exact eraseFlags_warn_append st2 (check_include_issues c2) (check_include_issues c2)
        (eraseWarn_check c2)

theorem pkeys_mapVals {β γ : Type} (g : β → γ) (d : List (Pth × β)) :
    pkeys (mapVals g d) = pkeys d := by
  induction d with
  | nil => rfl
  | cons e rest ih =>
    obtain ⟨a, b⟩ := e
    show a :: pkeys (mapVals g rest) = a :: pkeys rest
    rw [ih]

theorem analyze_erase (st : AnalysisState) :
    analyze (eraseFlags st) = eraseFlags (analyze st) := by
  unfold analyze
  rw [eraseFlags_components, pkeys_mapVals]
  generalize pkeys st.components = ks
  induction ks generalizing st with
  | nil => rfl
  | cons x xs ih =>
    show xs.foldl analyzeComponent (analyzeComponent (eraseFlags st) x) = _
    rw [analyzeComponent_erase, ih]
    rfl

theorem map_view_mapVals (l : List (Pth × Component)) :
    (mapVals eraseComp l).map (fun e => (e.1, e.2.dep_internal, e.2.dep_external)) =
      l.map (fun e => (e.1, e.2.dep_internal, e.2.dep_external)) := by
  induction l with
  | nil => rfl
  | cons e rest ih =>
    obtain ⟨a, b⟩ := e
    show (a, (eraseComp b).dep_internal, (eraseComp b).dep_external) ::
        (mapVals eraseComp rest).map (fun e => (e.1, e.2.dep_internal, e.2.dep_external)) =
      (a, b.dep_internal, b.dep_external) ::
        rest.map (fun e => (e.1, e.2.dep_internal, e.2.dep_external))
    rw [ih]
    rfl

theorem depsView_erase (st : AnalysisState) :
    depsView (eraseFlags st) = depsView st := by
  show (mapVals eraseComp st.components).map _ = st.components.map _
  exact map_view_mapVals st.components

/-- Claim C9: two analysis runs on states that differ only in the
quoted-vs-angled flags of some directives produce identical dependency edges —
indeed identical states up to those flags (the only flag-dependent output is
the delimiter pair printed inside `header not found` messages).
`DependencyAnalysis.locate` never reads `with_quotes`, and the unused
`Include.pyLocate` (`Include.locate`, lines 185-211) is referenced nowhere in
the embedded `analyze` pipeline. -/
theorem claim_C9 (st1 st2 : AnalysisState) (h : eraseFlags st1 = eraseFlags st2) :
    depsView (analyze st1) = depsView (analyze st2) ∧
    eraseFlags (analyze st1) = eraseFlags (analyze st2) := by
  have h2 : eraseFlags (analyze st1) = eraseFlags (analyze st2) := by
    rw [← analyze_erase, ← analyze_erase, h]
  refine ⟨?_, h2⟩
  rw [← depsView_erase (analyze st1), ← depsView_erase (analyze st2), h2]

/-- Witness for C9: the same lone component once with a quoted and once with an
angled directive. -/
theorem claim_C9_witness :
    depsView (analyze (stW9 true)) = depsView (analyze (stW9 false)) ∧
    eraseFlags (analyze (stW9 true)) = eraseFlags (analyze (stW9 false)) :=
  claim_C9 (stW9 true) (stW9 false) (by decide)

end Cppdep
